import Mathlib

/-!
Verification of the conversation orchestrator of the `minusx` backend
(`backend/tasks/orchestrator.py`, `backend/tasks/conversation.py`,
`backend/tasks/chat_thread_processor.py`, `backend/main.py`).

The Python code is shallowly embedded: Python dicts become insertion-ordered
association lists with Python's update/pop semantics, wall-clock timestamps
become an explicit `now` argument, and agent classes (instantiate + `reduce`
+ `run`) become an opaque behaviour function supplied as a parameter, so the
theorems hold for every agent behaviour.
-/

namespace MinusX

/-- Opaque JSON-like values carried in task `args`, results and completion
contents.  The orchestrator treats these as opaque data. -/
inductive Value where
  | str (s : String)
  | num (n : Int)
  | boolean (b : Bool)
  | null
  | arr (elems : List Value)
  | obj (fields : List (String × Value))

/-- Argument mappings (`args: dict` in the source). -/
abbrev Args := List (String × Value)

-- ===========================================================================
-- Python dict semantics over insertion-ordered association lists
-- ===========================================================================

/-- `d[k] = v` for a Python dict: replace in place if the key exists,
otherwise append at the end (Python dicts preserve insertion order and keep
the original position on re-assignment). -/
def dictInsert (d : List (String × α)) (k : String) (v : α) : List (String × α) :=
  match d with
  | [] => [(k, v)]
  | p :: rest => if p.1 = k then (k, v) :: rest else p :: dictInsert rest k v

/-- `d.pop(k, None)` for a Python dict: remove the entry with key `k`. -/
def dictPop (d : List (String × α)) (k : String) : List (String × α) :=
  d.filter (fun p => p.1 ≠ k)

/-- `d.get(k)` lookup. -/
def dictGet (d : List (String × α)) (k : String) : Option α :=
  match d with
  | [] => none
  | p :: rest => if p.1 = k then some p.2 else dictGet rest k

/-- `k in d` membership test. -/
def dictHasKey (d : List (String × α)) (k : String) : Bool :=
  d.any (fun p => p.1 == k)

/-- Update the value stored at key `k` (no-op when absent); used for
in-place mutation of a value already in a dict. -/
def dictModify (d : List (String × α)) (k : String) (f : α → α) : List (String × α) :=
  match d with
  | [] => []
  | p :: rest => if p.1 = k then (k, f p.2) :: rest else p :: dictModify rest k f

-- ===========================================================================
-- Log model (orchestrator.py: Task, TaskResult, TaskDebugLog)
-- ===========================================================================

/-- `Task` log entry (pydantic `Task` in orchestrator.py). -/
structure TaskEntry where
  parent_unique_id : Option String
  previous_unique_id : Option String
  run_id : String
  agent : String
  args : Args
  unique_id : String
  created_at : String

/-- `TaskResult` log entry. -/
structure TaskResultEntry where
  task_unique_id : String
  result : Option Value
  created_at : String

/-- `TaskDebugLog` log entry.  `duration` and `llmDebug` are wall-clock /
LLM metrics never inspected by the orchestrator logic under verification;
only the discriminating fields are carried. -/
structure TaskDebugEntry where
  task_unique_id : String
  created_at : String

/-- A conversation log entry, discriminated by `_type`. -/
inductive LogEntry where
  | task (t : TaskEntry)
  | taskResult (r : TaskResultEntry)
  | taskDebug (d : TaskDebugEntry)

/-- `ConversationLog = List[Union[Task, TaskResult, TaskDebugLog]]`. -/
abbrev ConversationLog := List LogEntry

/-- Is this entry a `task` entry with the given `unique_id`? -/
def LogEntry.isTaskFor (uid : String) : LogEntry → Bool
  | .task t => t.unique_id == uid
  | _ => false

/-- Is this entry a `task_result` entry with the given `_task_unique_id`? -/
def LogEntry.isResultFor (uid : String) : LogEntry → Bool
  | .taskResult r => r.task_unique_id == uid
  | _ => false

-- ===========================================================================
-- Compressed state (orchestrator.py: CompressedTask, CompressedConversationLog)
-- ===========================================================================

/-- Mutable runtime task (`CompressedTask`).  The `debug` timing object is
not modelled (wall-clock metrics). -/
structure CompressedTask where
  parent_unique_id : Option String
  previous_unique_id : Option String
  run_id : String
  agent : String
  args : Args
  unique_id : String
  child_unique_ids : List (List String)
  result : Option Value

/-- `CompressedConversationLog`: the task dict (insertion-ordered), the
append-only log, and `_log_start_index`. -/
structure CCLog where
  tasks : List (String × CompressedTask)
  log : ConversationLog
  logStartIndex : Nat

/-- First pass of `_rebuild_from_log`: walk the entries, creating tasks and
assigning results (last-write-wins); `task_debug` entries are skipped. -/
def rebuildStep (tasks : List (String × CompressedTask)) :
    LogEntry → List (String × CompressedTask)
  | .task t =>
      dictInsert tasks t.unique_id
        { parent_unique_id := t.parent_unique_id
          previous_unique_id := t.previous_unique_id
          run_id := t.run_id
          agent := t.agent
          args := t.args
          unique_id := t.unique_id
          child_unique_ids := []
          result := none }
  | .taskResult r =>
      if dictHasKey tasks r.task_unique_id then
        dictModify tasks r.task_unique_id (fun task => { task with result := r.result })
      else
        tasks
  | .taskDebug _ => tasks

/-- Place a child id inside the parent's `child_unique_ids`: appended to the
first batch whose head task has the same `run_id`, else as a new batch. -/
def addChildToBatches (tasks : List (String × CompressedTask)) (childId childRunId : String)
    (batches : List (List String)) : List (List String) :=
  match batches with
  | [] => [[childId]]
  | batch :: rest =>
      match batch with
      | [] => batch :: addChildToBatches tasks childId childRunId rest
      | headId :: _ =>
          if (dictGet tasks headId).map CompressedTask.run_id == some childRunId then
            (batch ++ [childId]) :: rest
          else
            batch :: addChildToBatches tasks childId childRunId rest

/-- Second pass of `_rebuild_from_log`: for every task with a parent, append
it to the parent's matching `run_id` batch. -/
def linkChildren (tasks : List (String × CompressedTask)) :
    List (String × CompressedTask) :=
  (tasks.map (·.1)).foldl
    (fun acc key =>
      match dictGet acc key with
      | none => acc
      | some task =>
          match task.parent_unique_id with
          | none => acc
          | some p =>
              match dictGet acc p with
              | none => acc
              | some _ =>
                  dictModify acc p (fun parent =>
                    { parent with
                      child_unique_ids :=
                        addChildToBatches acc task.unique_id task.run_id
                          parent.child_unique_ids }))
    tasks

/-- `CompressedConversationLog._rebuild_from_log` (also the constructor with
a non-empty log): copies the log, remembers `_log_start_index = len(log)`,
and rebuilds the task dict. -/
def rebuildFromLog (log : ConversationLog) : CCLog :=
  { tasks := linkChildren (log.foldl rebuildStep [])
    log := log
    logStartIndex := log.length }

/-- `CompressedConversationLog.get_log_diff`. -/
def CCLog.getLogDiff (c : CCLog) : ConversationLog :=
  c.log.drop c.logStartIndex

-- ===========================================================================
-- conversation.py
-- ===========================================================================

/-- `get_latest_root`: index and entry of the last `task` entry with
`parent_unique_id = None`. -/
def getLatestRoot (log : ConversationLog) : Option Nat × Option TaskEntry :=
  let scan := log.foldl
    (fun (acc : Option Nat × Option TaskEntry × Nat) entry =>
      match entry with
      | .task t =>
          if t.parent_unique_id.isNone then (some acc.2.2, some t, acc.2.2 + 1)
          else (acc.1, acc.2.1, acc.2.2 + 1)
      | _ => (acc.1, acc.2.1, acc.2.2 + 1))
    (none, none, 0)
  (scan.1, scan.2.1)

/-- First phase of `get_pending_leaf_tasks`: scan the suffix, inserting
`task` entries and popping on `task_result`. -/
def pendingScanStep (d : List (String × TaskEntry)) : LogEntry → List (String × TaskEntry)
  | .task t => dictInsert d t.unique_id t
  | .taskResult r => dictPop d r.task_unique_id
  | .taskDebug _ => d

/-- Second phase of `get_pending_leaf_tasks`: pop every task that is the
parent of another still-pending task (iterating over a snapshot of the
values while popping from the live dict). -/
def popPendingParents (d : List (String × TaskEntry)) : List (String × TaskEntry) :=
  (d.map (·.2)).foldl
    (fun acc entry =>
      match entry.parent_unique_id with
      | some p => if dictHasKey acc p then dictPop acc p else acc
      | none => acc)
    d

/-- `get_pending_leaf_tasks`: pending tasks (no later `task_result`) from the
latest root onwards, with pending parents removed. -/
def getPendingLeafTasks (log : ConversationLog) : List TaskEntry :=
  match (getLatestRoot log).1 with
  | none => []
  | some rootIndex =>
      (popPendingParents ((log.drop rootIndex).foldl pendingScanStep [])).map (·.2)

/-- One client-supplied completed tool call
(`ChatCompletionToolMessageParamMX`: `role`, `tool_call_id`, `content`). -/
structure CompletedToolCall where
  tool_call_id : String
  content : Value

/-- One entry of a `child_tasks_batch` attached to a pending tool call. -/
structure ChildTaskInfo where
  tool_call_id : String
  agent : String
  args : Args
  result : Option Value

/-- A pending tool call (`ChatCompletionMessageToolCallParamMX`) as produced
by `pending_leaf_task_to_tool_call`: `{id, type: "function", function:
{name, arguments, child_tasks_batch?}}`. -/
structure PendingToolCall where
  id : String
  name : String
  arguments : Args
  child_tasks_batch : Option (List (List ChildTaskInfo))

/-- Group a list of tasks by `run_id`, in first-encounter key order
(`defaultdict(list)` in the source). -/
def groupByRunId (tasks : List TaskEntry) : List (String × List TaskEntry) :=
  tasks.foldl
    (fun acc t =>
      if dictHasKey acc t.run_id then
        dictModify acc t.run_id (fun g => g ++ [t])
      else
        acc ++ [(t.run_id, [t])])
    []

/-- `pending_leaf_task_to_tool_call`.  When `task_map`/`result_map` are
supplied and the task has children, a `child_tasks_batch` is attached.  (In
the source a child with no recorded result raises `KeyError`; the pending
leaf precondition guarantees children are complete, so the lookup is
modelled as an `Option`.) -/
def pendingLeafTaskToToolCall (task : TaskEntry)
    (maps : Option (List (String × TaskEntry) × List (String × Option Value))) :
    PendingToolCall :=
  match maps with
  | none => { id := task.unique_id, name := task.agent, arguments := task.args,
              child_tasks_batch := none }
  | some (taskMap, resultMap) =>
      let children := (taskMap.map (·.2)).filter
        (fun t => t.parent_unique_id == some task.unique_id)
      if children.isEmpty then
        { id := task.unique_id, name := task.agent, arguments := task.args,
          child_tasks_batch := none }
      else
        { id := task.unique_id, name := task.agent, arguments := task.args,
          child_tasks_batch := some
            ((groupByRunId children).map (fun g =>
              g.2.map (fun child =>
                { tool_call_id := child.unique_id
                  agent := child.agent
                  args := child.args
                  result := (dictGet resultMap child.unique_id).join : ChildTaskInfo }))) }

/-- The `tool_call_id → content` dict built from the supplied
`completed_tool_calls`. -/
def buildCompletedMap (completed : List CompletedToolCall) : List (String × Value) :=
  completed.foldl (fun m c => dictInsert m c.tool_call_id c.content) []

/-- One iteration of the loop of `update_log_with_completed_tool_calls`:
append the matched `TaskResult`, or an `<Interrupted />` one, or report the
leaf as still pending. -/
def updateStep (completedMap : List (String × Value)) (interruptPending : Bool)
    (now : String) (acc : ConversationLog × List PendingToolCall) (task : TaskEntry) :
    ConversationLog × List PendingToolCall :=
  match dictGet completedMap task.unique_id with
  | some content =>
      (acc.1 ++ [.taskResult { task_unique_id := task.unique_id,
                               result := some content, created_at := now }],
       acc.2)
  | none =>
      if interruptPending then
        (acc.1 ++ [.taskResult { task_unique_id := task.unique_id,
                                 result := some (.str "<Interrupted />"),
                                 created_at := now }],
         acc.2)
      else
        (acc.1, acc.2 ++ [pendingLeafTaskToToolCall task none])

/-- `update_log_with_completed_tool_calls`: append a `TaskResult` for every
pending leaf matched by a supplied completion; when `interrupt_pending`,
append `TaskResult(result="<Interrupted />")` for the unmatched ones;
otherwise report them back as still-pending tool calls. -/
def updateLogWithCompletedToolCalls (log : ConversationLog)
    (completed : List CompletedToolCall) (interruptPending : Bool) (now : String) :
    ConversationLog × List PendingToolCall :=
  let pendingLeafTasks := getPendingLeafTasks log
  let completedMap := buildCompletedMap completed
  pendingLeafTasks.foldl (updateStep completedMap interruptPending now) (log, [])

/-- `get_pending_tool_calls`: the pending leaves from the latest root
onwards, as tool calls with `child_tasks_batch` attached. -/
def getPendingToolCalls (log : ConversationLog) : List PendingToolCall :=
  let pendingLeafTasks := getPendingLeafTasks log
  match (getLatestRoot log).1 with
  | none => []
  | some rootIndex =>
      let suffix := log.drop rootIndex
      let taskMap := suffix.foldl
        (fun (m : List (String × TaskEntry)) e =>
          match e with
          | .task t => dictInsert m t.unique_id t
          | _ => m) []
      let resultMap := suffix.foldl
        (fun (m : List (String × Option Value)) e =>
          match e with
          | .taskResult r => dictInsert m r.task_unique_id r.result
          | _ => m) []
      pendingLeafTasks.map (fun t => pendingLeafTaskToToolCall t (some (taskMap, resultMap)))

/-- `close_conversation` (`POST /api/chat/close` in main.py): interrupt all
pending leaves, returning only the log diff. -/
def closeConversation (log : ConversationLog) (now : String) : ConversationLog :=
  ((updateLogWithCompletedToolCalls log [] true now).1).drop log.length

-- ===========================================================================
-- Agent parameter metadata and normalize_agent_args (orchestrator.py)
-- ===========================================================================

/-- The default of one constructor parameter, as `normalize_agent_args`
classifies it by inspecting `inspect.signature(agent_cls.__init__)`:
a pydantic `FieldInfo` with a `default_factory` (modelled by the value the
factory produces), a `FieldInfo` with a concrete default, a required
`FieldInfo` (`default` is `...`/`PydanticUndefined`), or a parameter whose
default is not a `FieldInfo` at all (e.g. `goal: str` on `AnalystAgent`,
skipped by the normalizer). -/
inductive ParamDefault where
  | fieldFactory (v : Value)
  | fieldDefault (v : Value)
  | fieldRequired
  | plain

/-- One declared constructor parameter (name and classified default).  The
`self`, `_unique_id`, `orchestrator`, `args` and `kwargs` parameters that
the source skips by name are not part of the declared list. -/
structure AgentParam where
  name : String
  default : ParamDefault

/-- The registered metadata of one agent class; the registry itself
(`Orchestrator._agent_registry`) is a name-indexed partial map. -/
abbrev AgentSpec := List AgentParam

/-- One iteration of the parameter loop of `normalize_agent_args`. -/
def normalizeStep (acc : Args × List String) (param : AgentParam) : Args × List String :=
  if dictHasKey acc.1 param.name then acc
  else
    match param.default with
    | .fieldFactory v => (dictInsert acc.1 param.name v, acc.2)
    | .fieldDefault v => (dictInsert acc.1 param.name v, acc.2)
    | .fieldRequired => (acc.1, acc.2 ++ [param.name])
    | .plain => acc

/-- `normalize_agent_args`: fill defaults for declared parameters missing
from `args`; collect the names of required `Field` parameters that remain
absent. -/
def normalizeAgentArgs (spec : AgentSpec) (args : Args) : Args × List String :=
  spec.foldl normalizeStep (args, [])

/-- The synthetic result recorded when required parameters are missing. -/
def missingParamsMsg (missing : List String) : String :=
  "<ERROR>Required parameters missing: " ++ String.intercalate ", " missing ++ "</ERROR>"

-- ===========================================================================
-- Orchestrator (orchestrator.py)
-- ===========================================================================

/-- An exception escaping one task's execution: the `UserInputException`
control signal, or any other exception (carried as an opaque message). -/
inductive ExcKind where
  | userInput (task_unique_ids : List String)
  | other (msg : String)

/-- The settled outcome of one task coroutine under
`asyncio.gather(..., return_exceptions=True)`: `none` when the coroutine
returned normally, `some e` when it raised `e`. -/
abbrev TaskOutcome := Option ExcKind

/-- Orchestrator state: the compressed conversation log.  `add_task`,
`assign_result` and `add_debug` mutate the dict and append to the log. -/
abbrev OrchState := CCLog

/-- `CompressedConversationLog.add_task`. -/
def addTask (st : OrchState) (task : CompressedTask) (now : String) : OrchState :=
  { st with
    tasks := dictInsert st.tasks task.unique_id task
    log := st.log ++ [.task { parent_unique_id := task.parent_unique_id
                              previous_unique_id := task.previous_unique_id
                              run_id := task.run_id
                              agent := task.agent
                              args := task.args
                              unique_id := task.unique_id
                              created_at := now }] }

/-- `CompressedConversationLog.assign_result`. -/
def assignResult (st : OrchState) (taskId : String) (result : Value) (now : String) :
    OrchState :=
  { st with
    tasks := dictModify st.tasks taskId (fun t => { t with result := some result })
    log := st.log ++ [.taskResult { task_unique_id := taskId, result := some result,
                                    created_at := now }] }

/-- `CompressedConversationLog.add_debug` (timing payload not modelled). -/
def addDebug (st : OrchState) (taskId : String) (now : String) : OrchState :=
  { st with
    log := st.log ++ [.taskDebug { task_unique_id := taskId, created_at := now }] }

/-- `Orchestrator.get_children`: the task's children grouped by dispatch
batch.  A dangling child id raises `KeyError` in the source, modelled as
`none`. -/
def getChildren (st : OrchState) (uid : String) : Option (List (List CompressedTask)) :=
  match dictGet st.tasks uid with
  | none => none
  | some task =>
      task.child_unique_ids.mapM (fun group => group.mapM (dictGet st.tasks))

/-- The behaviour of an instantiated agent: `agent_cls(...)` + `reduce` +
`run`, which may transform the orchestrator state (dispatching children,
issuing LLM calls, …) and either return a result value or raise.  The
theorems below quantify over every behaviour. -/
abbrev AgentBehavior := CompressedTask → Args → OrchState → OrchState × Except ExcKind Value

/-- The result of `run_single` for one task: the updated state, the settled
coroutine outcome, and — when the agent was actually instantiated — the
argument mapping handed to its constructor. -/
structure RunSingleResult where
  state : OrchState
  outcome : TaskOutcome
  invokedWith : Option Args

/-- `Orchestrator.run.run_single`: skip tasks that already carry a result,
reject reserved arg keys, normalize args (recording the `<ERROR>` sentinel
when required parameters are missing), otherwise instantiate the agent,
`reduce`, `run`, record the result and a debug entry. -/
def runSingle (registry : String → Option AgentSpec) (exec : AgentBehavior)
    (now : String) (st : OrchState) (taskId : String) : RunSingleResult :=
  match dictGet st.tasks taskId with
  | none => { state := st, outcome := some (.other "KeyError"), invokedWith := none }
  | some task =>
    if task.result.isSome then
      { state := st, outcome := none, invokedWith := none }
    else
      let args := task.args
      if dictHasKey args "_unique_id" || dictHasKey args "orchestrator" then
        { state := st
          outcome := some (.other
            ("ValueError: Agent arguments cannot contain reserved keys. Agent: "
              ++ task.agent))
          invokedWith := none }
      else
        match registry task.agent with
        | none =>
            { state := st, outcome := some (.other ("ValueError: Agent not found: " ++ task.agent))
              invokedWith := none }
        | some spec =>
            let norm := normalizeAgentArgs spec args
            if norm.2 ≠ [] then
              { state := assignResult st taskId (.str (missingParamsMsg norm.2)) now
                outcome := none
                invokedWith := none }
            else
              match exec task norm.1 st with
              | (st', .ok result) =>
                  { state := addDebug (assignResult st' taskId result now) taskId now
                    outcome := none
                    invokedWith := some norm.1 }
              | (st', .error e) =>
                  { state := addDebug st' taskId now
                    outcome := some e
                    invokedWith := some norm.1 }

/-- `Orchestrator._handle_exceptions`: collect `UserInputException` ids,
re-raise the first other exception unchanged, else re-raise one aggregated
`UserInputException` when any task suspended. -/
def handleExceptions (results : List TaskOutcome) : Option ExcKind :=
  let rec go : List TaskOutcome → List String → Option ExcKind
    | [], ids => if ids ≠ [] then some (.userInput ids) else none
    | r :: rest, ids =>
        match r with
        | none => go rest ids
        | some (.userInput l) => go rest (ids ++ l)
        | some (.other m) => some (.other m)
  go results []

/-- `AgentCall` (orchestrator.py). -/
structure AgentCall where
  agent : String
  args : Args
  unique_id : Option String
  error : Option String

/-- `Orchestrator.run`: create one task per call under a shared fresh
`run_id` (`genId 0`; `genId (i+1)` is the generated id of the i-th call
without a caller-supplied id), link them into the parent's batches, then
execute each task and gather the outcomes.  Besides the final state and the
re-raised exception it returns the settled outcomes and the constructor
invocations, for stating theorems.  (A `parent_unique_id` absent from the
task dict raises `KeyError` in the source; no claim exercises it and the
link step is a no-op there.)

The `CompressedTask` created for one agent call: an error call has its
result preset to the error string. -/
def mkRunTask (runId : String) (call : AgentCall) (uid : String)
    (parentUniqueId previousUniqueId : Option String) : CompressedTask :=
  { parent_unique_id := parentUniqueId
    previous_unique_id := previousUniqueId
    run_id := runId
    agent := call.agent
    args := call.args
    unique_id := uid
    child_unique_ids := []
    result := call.error.map .str }

/-- `Orchestrator.run`'s parent bookkeeping: append the new batch to the
parent's `child_unique_ids`.  (A parent id absent from the task dict raises
`KeyError` in the source; no claim exercises that path.) -/
def linkParent (st : OrchState) (parentUniqueId : Option String) (ids : List String) :
    OrchState :=
  match parentUniqueId with
  | some p =>
      let tasks2 := dictModify st.tasks p
        (fun t => { t with child_unique_ids := t.child_unique_ids ++ [ids] })
      { st with tasks := tasks2 }
  | none => st

/-- `Orchestrator.run`: create one task per call, link the batch into the
parent, then execute each task and gather the outcomes. -/
def orchRun (registry : String → Option AgentSpec) (exec : AgentBehavior)
    (genId : Nat → String) (now : String) (st : OrchState) (calls : List AgentCall)
    (parentUniqueId previousUniqueId : Option String) :
    OrchState × Option ExcKind × List TaskOutcome × List (String × Args) :=
  let runId := genId 0
  let created := calls.foldl
    (fun (acc : OrchState × List String × Nat) call =>
      let uid := call.unique_id.getD (genId acc.2.2)
      let task := mkRunTask runId call uid parentUniqueId previousUniqueId
      (addTask acc.1 task now, acc.2.1 ++ [uid], acc.2.2 + 1))
    (st, [], 1)
  let ids := created.2.1
  let st2 := linkParent created.1 parentUniqueId ids
  let gathered := ids.foldl
    (fun (acc : OrchState × List TaskOutcome × List (String × Args)) uid =>
      let r := runSingle registry exec now acc.1 uid
      (r.state, acc.2.1 ++ [r.outcome],
       acc.2.2 ++ (r.invokedWith.map (fun a => [(uid, a)])).getD []))
    (st2, [], [])
  (gathered.1, handleExceptions gathered.2.1, gathered.2.1, gathered.2.2)

-- ===========================================================================
-- Orchestrator.resume (orchestrator.py)
-- ===========================================================================

/-- `Orchestrator._get_leaf_pending_tasks`: pending tasks that are not the
parent of any pending task. -/
def leafPendingTasks (st : OrchState) : List CompressedTask :=
  let values := st.tasks.map (·.2)
  let parentIds := values.filterMap
    (fun t => if t.result.isNone then t.parent_unique_id else none)
  values.filter (fun t => t.result.isNone && !(parentIds.contains t.unique_id))

/-- The evolving context of one `resume()` call: the orchestrator state, the
`_processing_unique_ids` set (insertion-ordered), and the execution trace —
one `(unique_id, all-children-completed-at-invocation)` record appended each
time an agent is instantiated and `reduce`+`run` invoked. -/
structure ResumeCtx where
  st : OrchState
  processing : List String
  trace : List (String × Bool)

/-- `Orchestrator.resume.resume_pending_task`: skip tasks already being
processed or already completed, wait while any child is pending, mark as
processing, normalize args, instantiate + `reduce` + `run`, record the
result, and on success recurse into the parent.  `fuel` bounds the parent
recursion (the source walks the finite parent chain). -/
def resumeTask (registry : String → Option AgentSpec) (exec : AgentBehavior)
    (now : String) : Nat → ResumeCtx → String → ResumeCtx × TaskOutcome
  | 0, ctx, _ => (ctx, none)
  | fuel + 1, ctx, taskId =>
      match dictGet ctx.st.tasks taskId with
      | none => (ctx, some (.other "KeyError"))
      | some task =>
        if ctx.processing.contains taskId || task.result.isSome then (ctx, none)
        else
          match getChildren ctx.st taskId with
          | none => (ctx, some (.other "KeyError"))
          | some childTasks =>
            if childTasks.any (fun group => group.any (fun c => c.result.isNone)) then
              (ctx, none)
            else
              let ctx := { ctx with processing := ctx.processing ++ [taskId] }
              match registry task.agent with
              | none => (ctx, some (.other ("ValueError: Agent not found: " ++ task.agent)))
              | some spec =>
                let norm := normalizeAgentArgs spec task.args
                if norm.2 ≠ [] then
                  ({ ctx with st := assignResult ctx.st taskId (.str (missingParamsMsg norm.2)) now },
                   none)
                else
                  let allChildrenDone :=
                    childTasks.all (fun group => group.all (fun c => c.result.isSome))
                  let ctx := { ctx with trace := ctx.trace ++ [(taskId, allChildrenDone)] }
                  match exec task norm.1 ctx.st with
                  | (st', .ok result) =>
                      let ctx := { ctx with
                        st := addDebug (assignResult st' taskId result now) taskId now }
                      match task.parent_unique_id with
                      | some p => resumeTask registry exec now fuel ctx p
                      | none => (ctx, none)
                  | (st', .error e) =>
                      ({ ctx with st := addDebug st' taskId now }, some e)

/-- `Orchestrator.resume`: advance every pending leaf, gathering outcomes
and aggregating `UserInputException`s. -/
def orchResume (registry : String → Option AgentSpec) (exec : AgentBehavior)
    (now : String) (fuel : Nat) (st : OrchState) :
    ResumeCtx × Option ExcKind :=
  let leaves := leafPendingTasks st
  let gathered := leaves.foldl
    (fun (acc : ResumeCtx × List TaskOutcome) leaf =>
      let r := resumeTask registry exec now fuel acc.1 leaf.unique_id
      (r.1, acc.2 ++ [r.2]))
    ({ st := st, processing := [], trace := [] }, [])
  (gathered.1, handleExceptions gathered.2)

-- ===========================================================================
-- chat_thread_processor.py
-- ===========================================================================

/-- One LLM tool call as received from the provider (`id`, `function.name`,
`function.arguments` as a raw JSON string). -/
structure LLMToolCall where
  id : String
  name : String
  arguments : String

/-- `tool_calls_to_agent_calls`, parameterized by the JSON parser
(`json.loads`, an external collaborator: `parse s = none` models
`JSONDecodeError`; a successful parse of a JSON string literal yields
`Value.str`).  `parse_json` returns the raw string on failure, and a
resulting string marks the call as having invalid JSON arguments. -/
def toolCallsToAgentCalls (parse : String → Option Value)
    (toolCalls : List LLMToolCall) (content : String) (citations : List Value)
    (contentBlocks : List Value) : List AgentCall :=
  let prefixCalls : List AgentCall :=
    if !contentBlocks.isEmpty then
      [{ agent := "TalkToUser", args := [("content_blocks", .arr contentBlocks)],
         unique_id := none, error := none }]
    else if content ≠ "" then
      [{ agent := "TalkToUser",
         args := [("content_blocks", .arr [.obj [("type", .str "text"), ("text", .str content)]]),
                  ("citations", .arr citations)],
         unique_id := none, error := none }]
    else []
  prefixCalls ++ toolCalls.map (fun tc =>
    match (parse tc.arguments).getD (.str tc.arguments) with
    | .str s =>
        { agent := tc.name, args := [("_original_args", .str s)],
          unique_id := some tc.id, error := some "Invalid JSON in arguments" }
    | parsed =>
        { agent := tc.name,
          args := match parsed with | .obj fields => fields | _ => [],
          unique_id := some tc.id, error := none })

-- ===========================================================================
-- Specification helpers (used to state and prove properties)
-- ===========================================================================

/-- Tracks whether the id `k` is present in the first-phase pending scan
after processing the entries of `l`, starting from presence `b`: a `task`
entry for `k` re-inserts it, a `task_result` for `k` removes it. -/
def pendingAlive (l : List LogEntry) (k : String) (b : Bool) : Bool :=
  l.foldl
    (fun a e => if e.isTaskFor k then true else if e.isResultFor k then false else a)
    b

/-- Is this settled outcome a non-`UserInput` exception? -/
def isOtherExc : TaskOutcome → Bool
  | some (.other _) => true
  | _ => false

/-- The ids reported by the `UserInput` signals among the settled outcomes,
in order. -/
def suspendedIds : List TaskOutcome → List String
  | [] => []
  | none :: rest => suspendedIds rest
  | some (.userInput l) :: rest => l ++ suspendedIds rest
  | some (.other _) :: rest => suspendedIds rest

/-- The names of the required `Field` parameters of `spec` that `args`
omits, in declaration order. -/
def requiredMissing (spec : AgentSpec) (args : Args) : List String :=
  spec.filterMap (fun p =>
    match p.default with
    | .fieldRequired => if dictHasKey args p.name then none else some p.name
    | _ => none)

/-- The log entry that one loop iteration of
`update_log_with_completed_tool_calls` appends for a given pending leaf
(`none` when the leaf is reported back as still pending). -/
def updateEntryFor (completedMap : List (String × Value)) (interruptPending : Bool)
    (now : String) (task : TaskEntry) : Option LogEntry :=
  match dictGet completedMap task.unique_id with
  | some content =>
      some (.taskResult { task_unique_id := task.unique_id, result := some content,
                          created_at := now })
  | none =>
      if interruptPending then
        some (.taskResult { task_unique_id := task.unique_id,
                            result := some (.str "<Interrupted />"), created_at := now })
      else
        none

-- ===========================================================================
-- Concrete inputs for the boundary theorems
-- ===========================================================================

/-- A root task entry (no parent), as created for a fresh turn. -/
def exampleRoot : TaskEntry :=
  { parent_unique_id := none, previous_unique_id := none, run_id := "run0",
    agent := "MultiToolAgent", args := [], unique_id := "root", created_at := "T0" }

/-- A client-side tool task dispatched by the root. -/
def exampleTool (uid : String) : TaskEntry :=
  { parent_unique_id := some "root", previous_unique_id := none, run_id := "run1",
    agent := "UserInputTool", args := [], unique_id := uid, created_at := "T1" }

/-- An old root task from a previous turn. -/
def exampleOldRoot : TaskEntry :=
  { parent_unique_id := none, previous_unique_id := none, run_id := "runOld",
    agent := "MultiToolAgent", args := [], unique_id := "old", created_at := "S0" }

/-- A log in which the pending leaf `x` has an earlier `task_result` entry:
the tool was completed once and then re-dispatched under the same id. -/
def reorderLog : ConversationLog :=
  [.task exampleRoot, .task (exampleTool "x"),
   .taskResult { task_unique_id := "x", result := some (.str "a"), created_at := "T2" },
   .task (exampleTool "x")]

/-- A log whose first entry is a root task of a previous turn, followed by
the current root and one pending tool. -/
def preRootLog : ConversationLog :=
  [.task exampleOldRoot, .task exampleRoot, .task (exampleTool "x")]

/-- Current-turn log with two pending tools dispatched by the root. -/
def twoToolLog : ConversationLog :=
  [.task exampleRoot, .task (exampleTool "x"), .task (exampleTool "y")]

/-- An agent behaviour whose `run()` returns immediately. -/
def idleBehavior : AgentBehavior := fun _ _ st => (st, .ok (.str "ok"))

/-- The behaviour of a Python constructor call that raises `TypeError`
because a plain (non-`Field`) required argument is missing. -/
def typeErrorBehavior : AgentBehavior :=
  fun _ _ st => (st, .error (.other "TypeError: missing required argument: goal"))

/-- A registry holding an `AnalystAgent`-style class whose `goal` parameter
is a plain annotation with no default and no `Field` marker
(`agents/analyst/agent.py`). -/
def plainGoalRegistry : String → Option AgentSpec :=
  fun a => if a = "AnalystAgent" then some [⟨"goal", .plain⟩] else none

/-- A task calling `AnalystAgent` without the required `goal` argument. -/
def analystTask : CompressedTask :=
  ⟨none, none, "runA", "AnalystAgent", [], "a1", [], none⟩

/-- Orchestrator state holding only `analystTask`. -/
def analystState : OrchState := ⟨[("a1", analystTask)], [], 0⟩

/-- A registry holding a `SimpleTool`-style class with one required `Field`
parameter. -/
def simpleToolRegistry : String → Option AgentSpec :=
  fun a => if a = "SimpleTool" then some [⟨"value", .fieldRequired⟩] else none

/-- A task calling `SimpleTool` without the required `value` argument. -/
def missingValueTask : CompressedTask :=
  ⟨none, none, "runS", "SimpleTool", [], "s1", [], none⟩

/-- Orchestrator state holding only `missingValueTask`. -/
def missingValueState : OrchState := ⟨[("s1", missingValueTask)], [], 0⟩

/-- A registry holding a no-parameter tool class. -/
def noArgRegistry : String → Option AgentSpec :=
  fun a => if a = "NoArgTool" then some [] else none

/-- A task whose args carry an underscore-prefixed key. -/
def underscoreTask : CompressedTask :=
  ⟨none, none, "runU", "NoArgTool", [("_original_args", .str "raw")], "u1", [], none⟩

/-- Orchestrator state holding only `underscoreTask`. -/
def underscoreState : OrchState := ⟨[("u1", underscoreTask)], [], 0⟩

/-- A pending task whose args carry the reserved key `orchestrator`,
with one completed child. -/
def reservedKeyTask : CompressedTask :=
  ⟨none, none, "runR", "NoArgTool", [("orchestrator", .str "boom")], "r1", [], none⟩

/-- Orchestrator state holding only `reservedKeyTask`. -/
def reservedKeyState : OrchState := ⟨[("r1", reservedKeyTask)], [], 0⟩

/-- An empty resume context over a given state. -/
def initialResumeCtx (st : OrchState) : ResumeCtx := ⟨st, [], []⟩

/-- The bookkeeping invariant of `resume()`: each recorded `reduce`+`run`
invocation is of a distinct task, every invoked task is marked in
`_processing_unique_ids`, and at each invocation all children had
results. -/
def ResumeInv (ctx : ResumeCtx) : Prop :=
  ((ctx.trace.map Prod.fst).Nodup) ∧
  (∀ x ∈ ctx.trace.map Prod.fst, x ∈ ctx.processing) ∧
  (∀ p ∈ ctx.trace, (p : String × Bool).2 = true)

end MinusX

namespace MinusX

-- ===========================================================================
-- Lemmas: Python dict operations
-- ===========================================================================

theorem dictHasKey_iff (d : List (String × α)) (q : String) :
    dictHasKey d q = true ↔ q ∈ d.map Prod.fst := by
  induction d with
  | nil => simp [dictHasKey]
  | cons hd tl ih =>
      simp only [dictHasKey, List.any_cons, List.map_cons, List.mem_cons, Bool.or_eq_true,
        beq_iff_eq] at *
      constructor
      · rintro (h | h)
        · exact Or.inl h.symm
        · exact Or.inr (ih.mp h)
      · rintro (h | h)
        · exact Or.inl h.symm
        · exact Or.inr (ih.mpr h)

theorem dictGet_insert_self (d : List (String × α)) (k : String) (v : α) :
    dictGet (dictInsert d k v) k = some v := by
  induction d with
  | nil => simp [dictInsert, dictGet]
  | cons hd tl ih =>
      by_cases h : hd.1 = k
      · simp [dictInsert, dictGet, h]
      · simp [dictInsert, dictGet, h, ih]

theorem dictGet_insert_ne (d : List (String × α)) (k : String) (v : α) (q : String)
    (h : q ≠ k) : dictGet (dictInsert d k v) q = dictGet d q := by
  induction d with
  | nil =>
      simp only [dictInsert, dictGet]
      rw [if_neg (fun hc => h hc.symm)]
  | cons hd tl ih =>
      by_cases hh : hd.1 = k
      · have hne : hd.1 ≠ q := fun hc => h ((hc ▸ hh : q = k))
        simp only [dictInsert, if_pos hh, dictGet]
        rw [if_neg (fun hc => h hc.symm), if_neg hne]
      · simp only [dictInsert, if_neg hh, dictGet]
        split
        · rfl
        · exact ih

theorem dictGet_pop_ne (d : List (String × α)) (k : String) (q : String)
    (h : q ≠ k) : dictGet (dictPop d k) q = dictGet d q := by
  induction d with
  | nil => rfl
  | cons hd tl ih =>
      simp only [dictPop] at ih ⊢
      rw [List.filter_cons]
      by_cases hh : hd.1 = k
      · have hne : hd.1 ≠ q := fun hc => h ((hc ▸ hh : q = k))
        rw [if_neg (by simp [hh]), ih]
        simp only [dictGet]
        rw [if_neg hne]
      · rw [if_pos (by simp [hh])]
        simp only [dictGet]
        split
        · rfl
        · exact ih

theorem dictGet_modify (d : List (String × α)) (k : String) (f : α → α) (q : String) :
    dictGet (dictModify d k f) q = if q = k then (dictGet d q).map f else dictGet d q := by
  induction d with
  | nil => simp [dictModify, dictGet]
  | cons hd tl ih =>
      by_cases hh : hd.1 = k
      · subst hh
        simp only [dictModify, if_pos rfl, dictGet]
        by_cases hq : q = hd.1
        · simp [hq]
        · have h1 : hd.1 ≠ q := fun hc => hq hc.symm
          rw [if_neg h1, if_neg hq, if_neg h1]
      · by_cases hq : hd.1 = q
        · subst hq
          simp only [dictModify, if_neg hh, dictGet]
          simp [hh]
        · simp only [dictModify, if_neg hh, dictGet, if_neg hq]
          exact ih

theorem dictHasKey_insert (d : List (String × α)) (k : String) (v : α) (q : String) :
    dictHasKey (dictInsert d k v) q = (q == k || dictHasKey d q) := by
  induction d with
  | nil =>
      simp only [dictInsert, dictHasKey, List.any_cons, List.any_nil, Bool.or_false]
      by_cases h : q = k
      · simp [h]
      · have h2 : ¬k = q := fun hc => h hc.symm
        simp [h, h2]
  | cons hd tl ih =>
      by_cases hh : hd.1 = k
      · subst hh
        simp only [dictInsert, if_pos rfl, dictHasKey, List.any_cons]
        by_cases h : q = hd.1
        · simp [h]
        · have h2 : ¬hd.1 = q := fun hc => h hc.symm
          simp [h, h2]
      · simp only [dictInsert, if_neg hh, dictHasKey, List.any_cons]
        simp only [dictHasKey] at ih
        rw [ih]
        cases hb : (hd.1 == q) <;> cases hc : (q == k) <;> simp

theorem dictHasKey_pop (d : List (String × α)) (k : String) (q : String) :
    dictHasKey (dictPop d k) q = (!(q == k) && dictHasKey d q) := by
  induction d with
  | nil => simp [dictPop, dictHasKey]
  | cons hd tl ih =>
      simp only [dictPop] at ih ⊢
      rw [List.filter_cons]
      by_cases hh : hd.1 = k
      · rw [if_neg (by simp [hh]), ih]
        simp only [dictHasKey, List.any_cons]
        by_cases hq : q = hd.1
        · have : (q == k) = true := by simp [hq, hh]
          simp [this]
        · have : (hd.1 == q) = false := by
            simp only [beq_eq_false_iff_ne, ne_eq]
            exact fun hc => hq hc.symm
          simp [this]
      · rw [if_pos (by simp [hh])]
        simp only [dictHasKey, List.any_cons] at ih ⊢
        rw [ih]
        by_cases hq : hd.1 = q
        · subst hq
          have h3 : (hd.1 == k) = false := by simpa using hh
          simp [h3]
        · have h3 : (hd.1 == q) = false := by simpa using hq
          simp [h3]

theorem keys_insert (d : List (String × α)) (k : String) (v : α) :
    (dictInsert d k v).map Prod.fst =
      if dictHasKey d k then d.map Prod.fst else d.map Prod.fst ++ [k] := by
  induction d with
  | nil => simp [dictInsert, dictHasKey]
  | cons hd tl ih =>
      by_cases hh : hd.1 = k
      · simp only [dictInsert, if_pos hh, dictHasKey, List.any_cons, List.map_cons]
        rw [if_pos (by simp [hh])]
        simp [hh]
      · simp only [dictInsert, if_neg hh, dictHasKey, List.any_cons, List.map_cons]
        simp only [dictHasKey] at ih
        rw [ih]
        have h2 : (hd.1 == k) = false := by simpa using hh
        rw [h2]
        simp only [Bool.false_or]
        by_cases htl : (tl.any fun p => p.1 == k) = true
        · rw [if_pos htl, if_pos htl]
        · rw [if_neg htl, if_neg htl]
          simp

theorem keys_pop (d : List (String × α)) (k : String) :
    (dictPop d k).map Prod.fst = (d.map Prod.fst).filter (fun s => s ≠ k) := by
  induction d with
  | nil => rfl
  | cons hd tl ih =>
      simp only [dictPop] at ih ⊢
      rw [List.filter_cons, List.map_cons, List.filter_cons]
      by_cases h : hd.1 = k
      · rw [if_neg (by simp [h]), if_neg (by simp [h]), ih]
      · rw [if_pos (by simp [h]), if_pos (by simp [h]), List.map_cons, ih]

theorem keys_nodup_insert {d : List (String × α)} {k : String} (v : α)
    (h : (d.map Prod.fst).Nodup) : ((dictInsert d k v).map Prod.fst).Nodup := by
  rw [keys_insert]
  split
  · exact h
  · next hk =>
    refine List.Nodup.append h (List.nodup_singleton k) ?_
    intro a ha hb
    rw [List.mem_singleton] at hb
    subst hb
    exact hk ((dictHasKey_iff d a).mpr ha)

theorem keys_nodup_pop {d : List (String × α)} (k : String)
    (h : (d.map Prod.fst).Nodup) : ((dictPop d k).map Prod.fst).Nodup := by
  rw [keys_pop]
  exact h.filter _

theorem dictGet_eq_some_mem {d : List (String × α)} {k : String} {v : α}
    (h : dictGet d k = some v) : (k, v) ∈ d := by
  induction d with
  | nil => simp [dictGet] at h
  | cons hd tl ih =>
      simp only [dictGet] at h
      split at h
      · next heq =>
        cases h
        have hhd : hd = (k, hd.2) := by
          cases hd
          simp_all
        rw [← hhd]
        exact List.mem_cons_self hd tl
      · right
        exact ih h

theorem dictHasKey_of_dictGet {d : List (String × α)} {k : String} {v : α}
    (h : dictGet d k = some v) : dictHasKey d k = true :=
  (dictHasKey_iff d k).mpr (List.mem_map.mpr ⟨(k, v), dictGet_eq_some_mem h, rfl⟩)

end MinusX

namespace MinusX

-- ===========================================================================
-- Lemmas: the pending-leaf scan
-- ===========================================================================

theorem mem_dictInsert {d : List (String × α)} {k : String} {v : α} {p : String × α}
    (h : p ∈ dictInsert d k v) : p = (k, v) ∨ p ∈ d := by
  induction d with
  | nil => simpa [dictInsert] using h
  | cons hd tl ih =>
      simp only [dictInsert] at h
      split at h
      · rcases List.mem_cons.mp h with h | h
        · exact Or.inl h
        · exact Or.inr (List.mem_cons_of_mem _ h)
      · rcases List.mem_cons.mp h with h | h
        · exact Or.inr (h ▸ List.mem_cons_self hd tl)
        · rcases ih h with h | h
          · exact Or.inl h
          · exact Or.inr (List.mem_cons_of_mem _ h)

theorem mem_of_dictPop {d : List (String × α)} {k : String} {p : String × α}
    (h : p ∈ dictPop d k) : p ∈ d :=
  List.mem_of_mem_filter h

theorem pendingAlive_cons (e : LogEntry) (rest : List LogEntry) (k : String) (b : Bool) :
    pendingAlive (e :: rest) k b =
      pendingAlive rest k
        (if e.isTaskFor k then true else if e.isResultFor k then false else b) := rfl

theorem scan_hasKey (l : List LogEntry) (d : List (String × TaskEntry)) (k : String) :
    dictHasKey (l.foldl pendingScanStep d) k = pendingAlive l k (dictHasKey d k) := by
  induction l generalizing d with
  | nil => rfl
  | cons e rest ih =>
      rw [List.foldl_cons, ih, pendingAlive_cons]
      congr 1
      cases e with
      | task t =>
          simp only [pendingScanStep, LogEntry.isTaskFor, LogEntry.isResultFor,
            dictHasKey_insert]
          by_cases h : t.unique_id = k
          · simp [h]
          · have h2 : ¬k = t.unique_id := fun hc => h hc.symm
            simp [h, h2]
      | taskResult r =>
          simp only [pendingScanStep, LogEntry.isTaskFor, LogEntry.isResultFor,
            dictHasKey_pop]
          by_cases h : r.task_unique_id = k
          · simp [h]
          · have h2 : ¬k = r.task_unique_id := fun hc => h hc.symm
            simp [h, h2]
      | taskDebug _ => simp [pendingScanStep, LogEntry.isTaskFor, LogEntry.isResultFor]

theorem scan_value_id {l : List LogEntry} {d : List (String × TaskEntry)}
    (hd : ∀ p ∈ d, (p : String × TaskEntry).2.unique_id = p.1) :
    ∀ p ∈ l.foldl pendingScanStep d, (p : String × TaskEntry).2.unique_id = p.1 := by
  induction l generalizing d with
  | nil => exact hd
  | cons e rest ih =>
      rw [List.foldl_cons]
      refine ih ?_
      intro p hp
      cases e with
      | task t =>
          rcases mem_dictInsert hp with h | h
          · rw [h]
          · exact hd p h
      | taskResult r => exact hd p (mem_of_dictPop hp)
      | taskDebug _ => exact hd p hp

theorem scan_keys_nodup {l : List LogEntry} {d : List (String × TaskEntry)}
    (hd : (d.map Prod.fst).Nodup) :
    ((l.foldl pendingScanStep d).map Prod.fst).Nodup := by
  induction l generalizing d with
  | nil => exact hd
  | cons e rest ih =>
      rw [List.foldl_cons]
      refine ih ?_
      cases e with
      | task t => exact keys_nodup_insert _ hd
      | taskResult r => exact keys_nodup_pop _ hd
      | taskDebug _ => exact hd

theorem popPendingParents_mem {d : List (String × TaskEntry)} {p : String × TaskEntry}
    (h : p ∈ popPendingParents d) : p ∈ d := by
  unfold popPendingParents at h
  revert h
  generalize (d.map fun x => x.2) = snapshot
  induction snapshot generalizing d with
  | nil => exact fun h => h
  | cons e rest ih =>
      intro h
      rw [List.foldl_cons] at h
      have h2 := ih h
      cases hp : e.parent_unique_id with
      | none =>
          simp only [hp] at h2
          exact h2
      | some q =>
          simp only [hp] at h2
          by_cases hk : dictHasKey d q = true
          · rw [if_pos hk] at h2
            exact mem_of_dictPop h2
          · rw [if_neg hk] at h2
            exact h2
end MinusX

namespace MinusX

theorem pendingAlive_append (l1 l2 : List LogEntry) (k : String) (b : Bool) :
    pendingAlive (l1 ++ l2) k b = pendingAlive l2 k (pendingAlive l1 k b) := by
  unfold pendingAlive
  rw [List.foldl_append]

/-- A pending id has a `task` entry after which no `task_result` for it
occurs. -/
theorem pendingAlive_decomp {l : List LogEntry} {k : String}
    (h : pendingAlive l k false = true) :
    ∃ l1 t l2, l = l1 ++ LogEntry.task t :: l2 ∧ t.unique_id = k ∧
      ∀ e ∈ l2, e.isResultFor k = false := by
  induction l using List.reverseRecOn with
  | nil => simp [pendingAlive] at h
  | append_singleton l e ih =>
      rw [pendingAlive_append, pendingAlive_cons] at h
      cases e with
      | task t =>
          by_cases ht : t.unique_id = k
          · exact ⟨l, t, [], by simp, ht, by simp⟩
          · have ht2 : LogEntry.isTaskFor k (.task t) = false := by
              simp [LogEntry.isTaskFor, ht]
            rw [ht2] at h
            simp only [Bool.false_eq_true, if_false, LogEntry.isResultFor] at h
            rcases ih h with ⟨l1, t1, l2, hl, huid, hres⟩
            refine ⟨l1, t1, l2 ++ [.task t], by simp [hl], huid, ?_⟩
            intro x hx
            rcases List.mem_append.mp hx with hx | hx
            · exact hres x hx
            · rw [List.mem_singleton] at hx
              subst hx
              simp [LogEntry.isResultFor]
      | taskResult r =>
          by_cases hr : r.task_unique_id = k
          · have h1 : LogEntry.isTaskFor k (.taskResult r) = false := rfl
            have h2 : LogEntry.isResultFor k (.taskResult r) = true := by
              simp [LogEntry.isResultFor, hr]
            rw [h1, h2] at h
            simp [pendingAlive] at h
          · have h1 : LogEntry.isTaskFor k (.taskResult r) = false := rfl
            have h2 : LogEntry.isResultFor k (.taskResult r) = false := by
              simp [LogEntry.isResultFor, hr]
            rw [h1, h2] at h
            simp only [Bool.false_eq_true, if_false] at h
            rcases ih h with ⟨l1, t1, l2, hl, huid, hres⟩
            refine ⟨l1, t1, l2 ++ [.taskResult r], by simp [hl], huid, ?_⟩
            intro x hx
            rcases List.mem_append.mp hx with hx | hx
            · exact hres x hx
            · rw [List.mem_singleton] at hx
              subst hx
              exact h2
      | taskDebug dd =>
          have h1 : LogEntry.isTaskFor k (.taskDebug dd) = false := rfl
          have h2 : LogEntry.isResultFor k (.taskDebug dd) = false := rfl
          rw [h1, h2] at h
          simp only [Bool.false_eq_true, if_false] at h
          rcases ih h with ⟨l1, t1, l2, hl, huid, hres⟩
          refine ⟨l1, t1, l2 ++ [.taskDebug dd], by simp [hl], huid, ?_⟩
          intro x hx
          rcases List.mem_append.mp hx with hx | hx
          · exact hres x hx
          · rw [List.mem_singleton] at hx
            subst hx
            exact h2

/-- Every reported pending leaf is alive in the scan of the latest-root
suffix. -/
theorem mem_pendingLeafTasks_alive {log : ConversationLog} {t : TaskEntry}
    (h : t ∈ getPendingLeafTasks log) :
    ∃ r, (getLatestRoot log).1 = some r ∧
      pendingAlive (log.drop r) t.unique_id false = true := by
  unfold getPendingLeafTasks at h
  cases hroot : (getLatestRoot log).1 with
  | none =>
      rw [hroot] at h
      simp at h
  | some r =>
      rw [hroot] at h
      rcases List.mem_map.mp h with ⟨p, hp, rfl⟩
      have hpD := popPendingParents_mem hp
      have hco := scan_value_id (l := log.drop r) (d := []) (by simp) p hpD
      have hkey : dictHasKey ((log.drop r).foldl pendingScanStep []) p.1 = true :=
        (dictHasKey_iff _ _).mpr (List.mem_map.mpr ⟨p, hpD, rfl⟩)
      rw [scan_hasKey] at hkey
      refine ⟨r, rfl, ?_⟩
      rw [hco]
      simpa [dictHasKey] using hkey

theorem popPendingParents_keys_nodup {d : List (String × TaskEntry)}
    (h : (d.map Prod.fst).Nodup) : ((popPendingParents d).map Prod.fst).Nodup := by
  unfold popPendingParents
  generalize (d.map fun x => x.2) = snapshot
  induction snapshot generalizing d with
  | nil => exact h
  | cons e rest ih =>
      rw [List.foldl_cons]
      cases hp : e.parent_unique_id with
      | none =>
          simp only [hp]
          exact ih h
      | some q =>
          simp only [hp]
          by_cases hk : dictHasKey d q = true
          · rw [if_pos hk]
            exact ih (keys_nodup_pop _ h)
          · rw [if_neg hk]
            exact ih h

/-- The reported pending leaves have pairwise distinct `unique_id`s. -/
theorem pendingLeafTasks_ids_nodup (log : ConversationLog) :
    ((getPendingLeafTasks log).map TaskEntry.unique_id).Nodup := by
  unfold getPendingLeafTasks
  cases hroot : (getLatestRoot log).1 with
  | none => simp
  | some r =>
      have hco : ∀ p ∈ popPendingParents ((log.drop r).foldl pendingScanStep []),
          (p : String × TaskEntry).2.unique_id = p.1 := by
        intro p hp
        exact scan_value_id (d := []) (by simp) p (popPendingParents_mem hp)
      have hkeys := popPendingParents_keys_nodup
        (scan_keys_nodup (l := log.drop r) (d := []) (by simp))
      rw [List.map_map]
      have : ((popPendingParents ((log.drop r).foldl pendingScanStep [])).map
          (TaskEntry.unique_id ∘ fun x => x.2)) =
          (popPendingParents ((log.drop r).foldl pendingScanStep [])).map Prod.fst := by
        refine List.map_congr_left ?_
        intro p hp
        exact hco p hp
      rw [this]
      exact hkeys

theorem updateFold_fst (cmap : List (String × Value)) (interrupt : Bool) (now : String)
    (pls : List TaskEntry) (acc : ConversationLog × List PendingToolCall) :
    (pls.foldl (updateStep cmap interrupt now) acc).1 =
      acc.1 ++ pls.filterMap (updateEntryFor cmap interrupt now) := by
  induction pls generalizing acc with
  | nil => simp
  | cons t rest ih =>
      rw [List.foldl_cons, ih, List.filterMap_cons]
      unfold updateStep updateEntryFor
      cases hget : dictGet cmap t.unique_id with
      | some content => simp
      | none =>
          by_cases hi : interrupt
          · simp [hi]
          · simp [hi]

/-- The log returned by `update_log_with_completed_tool_calls` is the input
log followed by one appended entry per matched/interrupted pending leaf. -/
theorem updateLog_fst (log : ConversationLog) (completed : List CompletedToolCall)
    (interrupt : Bool) (now : String) :
    (updateLogWithCompletedToolCalls log completed interrupt now).1 =
      log ++ (getPendingLeafTasks log).filterMap
        (updateEntryFor (buildCompletedMap completed) interrupt now) := by
  unfold updateLogWithCompletedToolCalls
  exact updateFold_fst _ _ _ _ _

theorem foldl_insert_get_ne (l : List CompletedToolCall) (k : String) :
    ∀ (m : List (String × Value)), (∀ c ∈ l, c.tool_call_id ≠ k) →
      dictGet (l.foldl (fun m c => dictInsert m c.tool_call_id c.content) m) k =
        dictGet m k := by
  induction l with
  | nil => intro m _; rfl
  | cons c rest ih =>
      intro m hm
      rw [List.foldl_cons, ih _ (fun c' hc' => hm c' (List.mem_cons_of_mem _ hc'))]
      exact dictGet_insert_ne _ _ _ _ (fun hc => hm c (List.mem_cons_self _ _) hc.symm)

theorem buildCompletedMap_get_of_forall_ne {completed : List CompletedToolCall}
    {k : String} (h : ∀ c ∈ completed, c.tool_call_id ≠ k) :
    dictGet (buildCompletedMap completed) k = none := by
  unfold buildCompletedMap
  rw [foldl_insert_get_ne completed k [] h]
  rfl

theorem buildCompletedMap_get_nodup {completed : List CompletedToolCall}
    (hnodup : (completed.map CompletedToolCall.tool_call_id).Nodup)
    {c : CompletedToolCall} (hc : c ∈ completed) :
    dictGet (buildCompletedMap completed) c.tool_call_id = some c.content := by
  unfold buildCompletedMap
  suffices hgen : ∀ (l : List CompletedToolCall) (m : List (String × Value)),
      (l.map CompletedToolCall.tool_call_id).Nodup → c ∈ l →
      dictGet (l.foldl (fun m c => dictInsert m c.tool_call_id c.content) m)
        c.tool_call_id = some c.content from
    hgen completed [] hnodup hc
  intro l
  induction l with
  | nil => intro m _ hmem; exact absurd hmem (List.not_mem_nil c)
  | cons hd rest ih =>
      intro m hnd hmem
      rw [List.map_cons, List.nodup_cons] at hnd
      rcases List.mem_cons.mp hmem with rfl | hmem
      · rw [List.foldl_cons]
        have : ∀ c' ∈ rest, c'.tool_call_id ≠ c.tool_call_id := by
          intro c' hc' hceq
          exact hnd.1 (hceq ▸ List.mem_map_of_mem CompletedToolCall.tool_call_id hc')
        rw [foldl_insert_get_ne rest c.tool_call_id _ this]
        exact dictGet_insert_self _ _ _
      · rw [List.foldl_cons]
        exact ih _ hnd.2 hmem

end MinusX

namespace MinusX

theorem buildCompletedMap_get_some {completed : List CompletedToolCall} {k : String}
    {v : Value} (h : dictGet (buildCompletedMap completed) k = some v) :
    ∃ c ∈ completed, c.tool_call_id = k ∧ c.content = v := by
  unfold buildCompletedMap at h
  suffices hgen : ∀ (l : List CompletedToolCall) (m : List (String × Value)),
      dictGet (l.foldl (fun m c => dictInsert m c.tool_call_id c.content) m) k = some v →
      (∃ c ∈ l, c.tool_call_id = k ∧ c.content = v) ∨ dictGet m k = some v by
    rcases hgen completed [] h with hg | hg
    · exact hg
    · simp [dictGet] at hg
  intro l
  induction l with
  | nil => intro m hm; exact Or.inr hm
  | cons c rest ih =>
      intro m hm
      rw [List.foldl_cons] at hm
      rcases ih _ hm with hg | hg
      · rcases hg with ⟨c', hc', hid, hv⟩
        exact Or.inl ⟨c', List.mem_cons_of_mem _ hc', hid, hv⟩
      · by_cases hk : k = c.tool_call_id
        · subst hk
          rw [dictGet_insert_self] at hg
          cases hg
          exact Or.inl ⟨c, List.mem_cons_self _ _, rfl, rfl⟩
        · rw [dictGet_insert_ne _ _ _ _ hk] at hg
          exact Or.inr hg

theorem pendingLeafTaskToToolCall_id (t : TaskEntry)
    (m : Option (List (String × TaskEntry) × List (String × Option Value))) :
    (pendingLeafTaskToToolCall t m).id = t.unique_id := by
  unfold pendingLeafTaskToToolCall
  cases m with
  | none => rfl
  | some mm =>
      cases mm
      dsimp only
      split
      · rfl
      · rfl

/-- A reported pending leaf always has a `task` entry in the latest-root
suffix. -/
theorem pendingLeaf_id_has_suffix_task {log : ConversationLog} {t : TaskEntry}
    (h : t ∈ getPendingLeafTasks log) :
    ∃ r, (getLatestRoot log).1 = some r ∧
      ∃ e ∈ log.drop r, e.isTaskFor t.unique_id = true := by
  rcases mem_pendingLeafTasks_alive h with ⟨r, hroot, halive⟩
  rcases pendingAlive_decomp halive with ⟨l1, tt, l2, hsplit, huid, _⟩
  refine ⟨r, hroot, .task tt, ?_, ?_⟩
  · rw [hsplit]
    exact List.mem_append.mpr (Or.inr (List.mem_cons_self _ _))
  · simp [LogEntry.isTaskFor, huid]

theorem updateEntryFor_shape {cmap : List (String × Value)} {interrupt : Bool}
    {now : String} {task : TaskEntry} {e : LogEntry}
    (h : updateEntryFor cmap interrupt now task = some e) :
    ∃ res, e = .taskResult { task_unique_id := task.unique_id, result := res,
                             created_at := now } := by
  unfold updateEntryFor at h
  split at h
  · cases h
    exact ⟨_, rfl⟩
  · split at h
    · cases h
      exact ⟨_, rfl⟩
    · cases h

/-- The per-request log diff of `update_log_with_completed_tool_calls`. -/
theorem updateLog_diff (log : ConversationLog) (completed : List CompletedToolCall)
    (interrupt : Bool) (now : String) :
    (updateLogWithCompletedToolCalls log completed interrupt now).1.drop log.length =
      (getPendingLeafTasks log).filterMap
        (updateEntryFor (buildCompletedMap completed) interrupt now) := by
  rw [updateLog_fst]
  exact List.drop_left _ _

end MinusX

namespace MinusX

-- ===========================================================================
-- Claim theorems
-- ===========================================================================

/-- C1: rebuilding the compressed state from any conversation log `L`
preserves the log entry for entry (`rebuild(L).log = L`), and the log diff
taken immediately after rebuilding (`log[log_start_index:]`) is empty.
Determinism is immediate: `rebuildFromLog` is a pure function. -/
theorem rebuild_preserves_log (L : ConversationLog) :
    (rebuildFromLog L).log = L ∧ (rebuildFromLog L).getLogDiff = [] := by
  constructor
  · rfl
  · show L.drop L.length = []
    exact List.drop_length L

/-- C9 counterexample: in `reorderLog` the leaf `x` is reported pending
(its tool was re-dispatched after completing), yet the log contains a
`task_result` entry with `_task_unique_id = "x"` — the claim's "no entry
anywhere in the log" fails. -/
theorem pending_leaf_with_result_entry :
    ∃ pc ∈ getPendingToolCalls reorderLog, ∃ e ∈ reorderLog, e.isResultFor pc.id = true := by
  have hlist : getPendingToolCalls reorderLog =
      [{ id := "x", name := "UserInputTool", arguments := [], child_tasks_batch := none }] := by
    rfl
  refine ⟨_, by rw [hlist]; exact List.mem_singleton_self _, ?_⟩
  refine ⟨.taskResult ⟨"x", some (.str "a"), "T2"⟩, ?_, rfl⟩
  simp [reorderLog]

/-- C9 (amended): for every pending leaf `P` reported in
`pending_tool_calls`, the log decomposes as `l1 ++ [task t] ++ l2` with
`t.unique_id = P.id` and no `task_result` entry for `P.id` anywhere after
that task entry; a `task_result` for `P.id` can only occur before a later
re-dispatch of the same id (or before the latest root). -/
theorem pending_leaf_no_result_after_last_task (log : ConversationLog)
    (pc : PendingToolCall) (h : pc ∈ getPendingToolCalls log) :
    ∃ l1 t l2, log = l1 ++ LogEntry.task t :: l2 ∧ t.unique_id = pc.id ∧
      ∀ e ∈ l2, e.isResultFor pc.id = false := by
  unfold getPendingToolCalls at h
  cases hroot : (getLatestRoot log).1 with
  | none =>
      rw [hroot] at h
      simp at h
  | some r =>
      rw [hroot] at h
      dsimp only at h
      rcases List.mem_map.mp h with ⟨t, ht, rfl⟩
      rw [pendingLeafTaskToToolCall_id]
      rcases mem_pendingLeafTasks_alive ht with ⟨r', hroot', halive⟩
      rw [hroot] at hroot'
      injection hroot' with hrr
      subst hrr
      rcases pendingAlive_decomp halive with ⟨l1, tt, l2, hsplit, huid, hres⟩
      refine ⟨log.take r ++ l1, tt, l2, ?_, huid, hres⟩
      conv_lhs => rw [← List.take_append_drop r log, hsplit]
      rw [List.append_assoc]

/-- Witness for C9's amended theorem at the concrete log `reorderLog`. -/
theorem pending_leaf_no_result_after_last_task_witness :
    ∃ l1 t l2, reorderLog = l1 ++ LogEntry.task t :: l2 ∧
      t.unique_id = "x" ∧ ∀ e ∈ l2, e.isResultFor "x" = false := by
  have hlist : getPendingToolCalls reorderLog =
      [{ id := "x", name := "UserInputTool", arguments := [], child_tasks_batch := none }] := by
    rfl
  exact pending_leaf_no_result_after_last_task reorderLog _
    (by rw [hlist]; exact List.mem_singleton_self _)

/-- C10: the pending-leaf computation is scoped to the latest-root suffix:
a task whose `task` entry appears before the latest root (and whose id is
not re-used after it) is never reported in `pending_tool_calls`, and no
supplied completion for it ever produces a `task_result` in the log diff of
`update_log_with_completed_tool_calls`. -/
theorem pre_root_task_never_pending_or_matched (log : ConversationLog)
    (r i : Nat) (t : TaskEntry)
    (hroot : (getLatestRoot log).1 = some r)
    (hi : i < r)
    (hentry : log.get? i = some (.task t))
    (hfresh : ∀ e ∈ log.drop r, e.isTaskFor t.unique_id = false) :
    (∀ pc ∈ getPendingToolCalls log, pc.id ≠ t.unique_id) ∧
    (∀ (completed : List CompletedToolCall) (interrupt : Bool) (now : String),
      ∀ e ∈ (updateLogWithCompletedToolCalls log completed interrupt now).1.drop log.length,
        e.isResultFor t.unique_id = false) := by
  have hnp : ∀ t' ∈ getPendingLeafTasks log, t'.unique_id ≠ t.unique_id := by
    intro t' ht' heq
    rcases pendingLeaf_id_has_suffix_task ht' with ⟨r2, hroot2, e, he, htask⟩
    rw [hroot] at hroot2
    injection hroot2 with hrr
    subst hrr
    rw [heq] at htask
    rw [hfresh e he] at htask
    exact Bool.false_ne_true htask
  constructor
  · intro pc hpc
    unfold getPendingToolCalls at hpc
    cases hroot3 : (getLatestRoot log).1 with
    | none => rw [hroot3] at hpc; simp at hpc
    | some r3 =>
        rw [hroot3] at hpc
        dsimp only at hpc
        rcases List.mem_map.mp hpc with ⟨t', ht', rfl⟩
        rw [pendingLeafTaskToToolCall_id]
        exact hnp t' ht'
  · intro completed interrupt now e he
    rw [updateLog_diff] at he
    rcases List.mem_filterMap.mp he with ⟨t', ht', hsome⟩
    rcases updateEntryFor_shape hsome with ⟨res, rfl⟩
    simp only [LogEntry.isResultFor]
    exact beq_eq_false_iff_ne.mpr (hnp t' ht')

/-- Witness for C10 at the concrete log `preRootLog`: the old root's task
entry precedes the latest root, so its id is never pending nor matched. -/
theorem pre_root_task_never_pending_or_matched_witness :
    (∀ pc ∈ getPendingToolCalls preRootLog, pc.id ≠ "old") ∧
    (∀ (completed : List CompletedToolCall) (interrupt : Bool) (now : String),
      ∀ e ∈ (updateLogWithCompletedToolCalls preRootLog completed interrupt now).1.drop
          preRootLog.length,
        e.isResultFor "old" = false) :=
  pre_root_task_never_pending_or_matched preRootLog 1 0 exampleOldRoot rfl
    (by decide) rfl (by decide)

end MinusX

namespace MinusX

/-- Entries produced from leaves whose id differs from `k` are never
`task_result`s for `k`. -/
theorem filterMap_no_result_for {pls : List TaskEntry} {cmap : List (String × Value)}
    {i : Bool} {now k : String}
    (h : ∀ t ∈ pls, t.unique_id ≠ k) :
    ∀ e ∈ pls.filterMap (updateEntryFor cmap i now), e.isResultFor k = false := by
  intro e he
  rcases List.mem_filterMap.mp he with ⟨t, ht, hsome⟩
  rcases updateEntryFor_shape hsome with ⟨res, rfl⟩
  simp only [LogEntry.isResultFor]
  exact beq_eq_false_iff_ne.mpr (h t ht)

/-- When the leaf ids are distinct and the leaf with id `k` produces an
entry, the diff contains exactly one `task_result` for `k`. -/
theorem count_result_entries {pls : List TaskEntry} {cmap : List (String × Value)}
    {i : Bool} {now k : String}
    (hnodup : (pls.map TaskEntry.unique_id).Nodup)
    {t0 : TaskEntry} (ht0 : t0 ∈ pls) (hk : t0.unique_id = k)
    (hproduce : updateEntryFor cmap i now t0 ≠ none) :
    ((pls.filterMap (updateEntryFor cmap i now)).filter
      (fun e => e.isResultFor k)).length = 1 := by
  induction pls with
  | nil => exact absurd ht0 (List.not_mem_nil t0)
  | cons t rest ih =>
      rw [List.map_cons, List.nodup_cons] at hnodup
      rw [List.filterMap_cons]
      cases hf : updateEntryFor cmap i now t with
      | none =>
          rcases List.mem_cons.mp ht0 with rfl | ht0r
          · exact absurd hf hproduce
          · exact ih hnodup.2 ht0r
      | some e =>
          rcases updateEntryFor_shape hf with ⟨res, rfl⟩
          rw [List.filter_cons]
          by_cases hte : t.unique_id = k
          · rw [if_pos (by simp [LogEntry.isResultFor, hte])]
            have hnone : ∀ t' ∈ rest, t'.unique_id ≠ k := by
              intro t' ht' hc
              refine hnodup.1 ?_
              rw [hte, ← hc]
              exact List.mem_map_of_mem TaskEntry.unique_id ht' 
            rw [List.length_cons, List.filter_eq_nil_iff.mpr
              (fun e' he' => by
                rw [Bool.not_eq_true]
                exact filterMap_no_result_for hnone e' he')]
            rfl
          · rw [if_neg (by simp [LogEntry.isResultFor, hte])]
            rcases List.mem_cons.mp ht0 with rfl | ht0r
            · exact absurd hk hte
            · exact ih hnodup.2 ht0r

/-- A `task_result` for `k` in the diff is fully determined by the
completion map at `k`. -/
theorem result_entry_value {pls : List TaskEntry} {cmap : List (String × Value)}
    {i : Bool} {now k : String} {e : LogEntry}
    (he : e ∈ pls.filterMap (updateEntryFor cmap i now))
    (hk : e.isResultFor k = true) :
    (∀ content, dictGet cmap k = some content →
      e = .taskResult ⟨k, some content, now⟩) ∧
    (dictGet cmap k = none →
      e = .taskResult ⟨k, some (.str "<Interrupted />"), now⟩) := by
  rcases List.mem_filterMap.mp he with ⟨t, ht, hsome⟩
  rcases updateEntryFor_shape hsome with ⟨res, rfl⟩
  simp only [LogEntry.isResultFor, beq_iff_eq] at hk
  subst hk
  unfold updateEntryFor at hsome
  constructor
  · intro content hget
    rw [hget] at hsome
    cases hsome
    rfl
  · intro hget
    rw [hget] at hsome
    cases hi : i
    · rw [hi] at hsome
      simp at hsome
    · rw [hi] at hsome
      simp only [if_true] at hsome
      cases hsome
      rfl

/-- C2: with `interrupt_pending = false` and distinct completion ids, a
`TaskResult` is appended for a supplied completion exactly when its
`tool_call_id` is the `unique_id` of a current pending leaf, carrying the
supplied content; a completion matching no pending leaf produces no entry,
and every appended entry stems from such a matched completion. -/
theorem completed_tool_calls_applied (log : ConversationLog)
    (completed : List CompletedToolCall) (now : String)
    (hnodup : (completed.map CompletedToolCall.tool_call_id).Nodup) :
    (∀ c ∈ completed,
      (c.tool_call_id ∈ (getPendingLeafTasks log).map TaskEntry.unique_id →
        (((updateLogWithCompletedToolCalls log completed false now).1.drop
            log.length).filter (fun e => e.isResultFor c.tool_call_id)).length = 1 ∧
        ∀ e ∈ (updateLogWithCompletedToolCalls log completed false now).1.drop log.length,
          e.isResultFor c.tool_call_id = true →
          e = .taskResult ⟨c.tool_call_id, some c.content, now⟩) ∧
      (c.tool_call_id ∉ (getPendingLeafTasks log).map TaskEntry.unique_id →
        ∀ e ∈ (updateLogWithCompletedToolCalls log completed false now).1.drop log.length,
          e.isResultFor c.tool_call_id = false)) ∧
    (∀ e ∈ (updateLogWithCompletedToolCalls log completed false now).1.drop log.length,
      ∃ c ∈ completed,
        c.tool_call_id ∈ (getPendingLeafTasks log).map TaskEntry.unique_id ∧
        e = .taskResult ⟨c.tool_call_id, some c.content, now⟩) := by
  have hdiff := updateLog_diff log completed false now
  constructor
  · intro c hc
    constructor
    · intro hmem
      rcases List.mem_map.mp hmem with ⟨t0, ht0, hk⟩
      have hget : dictGet (buildCompletedMap completed) c.tool_call_id = some c.content :=
        buildCompletedMap_get_nodup hnodup hc
      have hproduce : updateEntryFor (buildCompletedMap completed) false now t0 ≠ none := by
        unfold updateEntryFor
        rw [hk, hget]
        simp
      constructor
      · rw [hdiff]
        exact count_result_entries (pendingLeafTasks_ids_nodup log) ht0 hk hproduce
      · intro e he hke
        rw [hdiff] at he
        exact (result_entry_value he hke).1 c.content hget
    · intro hmem e he
      rw [hdiff] at he
      refine filterMap_no_result_for ?_ e he
      intro t ht hc2
      exact hmem (hc2 ▸ List.mem_map_of_mem TaskEntry.unique_id ht)
  · intro e he
    rw [hdiff] at he
    rcases List.mem_filterMap.mp he with ⟨t, ht, hsome⟩
    have hshape := updateEntryFor_shape hsome
    rcases hshape with ⟨res, rfl⟩
    unfold updateEntryFor at hsome
    cases hget : dictGet (buildCompletedMap completed) t.unique_id with
    | none =>
        rw [hget] at hsome
        simp at hsome
    | some content =>
        rw [hget] at hsome
        cases hsome
        rcases buildCompletedMap_get_some hget with ⟨c, hc, hcid, hccontent⟩
        exact ⟨c, hc, hcid ▸ List.mem_map_of_mem TaskEntry.unique_id ht,
          by rw [hcid, hccontent]⟩

/-- Witness for C2 at `twoToolLog` with one matched and one unmatched
completion. -/
theorem completed_tool_calls_applied_witness :
    (((updateLogWithCompletedToolCalls twoToolLog
        [⟨"x", .str "done"⟩, ⟨"zz", .str "no"⟩] false "T3").1.drop
          twoToolLog.length).filter (fun e => e.isResultFor "x")).length = 1 ∧
    (∀ e ∈ (updateLogWithCompletedToolCalls twoToolLog
        [⟨"x", .str "done"⟩, ⟨"zz", .str "no"⟩] false "T3").1.drop twoToolLog.length,
      e.isResultFor "zz" = false) := by
  have h := completed_tool_calls_applied twoToolLog
    [⟨"x", .str "done"⟩, ⟨"zz", .str "no"⟩] "T3" (by decide)
  refine ⟨((h.1 ⟨"x", .str "done"⟩ (by simp)).1 ?_).1, (h.1 ⟨"zz", .str "no"⟩ (by simp)).2 ?_⟩
  · decide
  · decide

/-- C3: with `interrupt_pending = true` (chat/close, and chat with a
`user_message`), every pending leaf of the latest root not matched by a
supplied completion gets exactly one `TaskResult` with result
`"<Interrupted />"`; `chat/close` on a log with no pending leaves returns
an empty diff. -/
theorem interrupt_marks_unmatched_pending (log : ConversationLog)
    (completed : List CompletedToolCall) (now : String) :
    (∀ t ∈ getPendingLeafTasks log,
      (∀ c ∈ completed, c.tool_call_id ≠ t.unique_id) →
      (((updateLogWithCompletedToolCalls log completed true now).1.drop
          log.length).filter (fun e => e.isResultFor t.unique_id)).length = 1 ∧
      ∀ e ∈ (updateLogWithCompletedToolCalls log completed true now).1.drop log.length,
        e.isResultFor t.unique_id = true →
        e = .taskResult ⟨t.unique_id, some (.str "<Interrupted />"), now⟩) ∧
    (getPendingLeafTasks log = [] → closeConversation log now = []) := by
  have hdiff := updateLog_diff log completed true now
  constructor
  · intro t ht hunmatched
    have hget : dictGet (buildCompletedMap completed) t.unique_id = none :=
      buildCompletedMap_get_of_forall_ne hunmatched
    have hproduce : updateEntryFor (buildCompletedMap completed) true now t ≠ none := by
      unfold updateEntryFor
      rw [hget]
      simp
    constructor
    · rw [hdiff]
      exact count_result_entries (pendingLeafTasks_ids_nodup log) ht rfl hproduce
    · intro e he hke
      rw [hdiff] at he
      exact (result_entry_value he hke).2 hget
  · intro hempty
    unfold closeConversation
    rw [updateLog_diff, hempty]
    rfl

/-- Witness for C3: the unmatched leaf `y` of `twoToolLog` is interrupted
exactly once, and closing an all-completed log yields an empty diff. -/
theorem interrupt_marks_unmatched_pending_witness :
    (((updateLogWithCompletedToolCalls twoToolLog [⟨"x", .str "done"⟩] true "T3").1.drop
        twoToolLog.length).filter (fun e => e.isResultFor "y")).length = 1 ∧
    closeConversation
      [.task exampleRoot,
       .taskResult ⟨"root", some (.str "All tools completed"), "T4"⟩] "T5" = [] := by
  constructor
  · have hpls : getPendingLeafTasks twoToolLog = [exampleTool "x", exampleTool "y"] := rfl
    exact ((interrupt_marks_unmatched_pending twoToolLog [⟨"x", .str "done"⟩] "T3").1
      (exampleTool "y") (by rw [hpls]; simp)
      (by intro c hc; rcases List.mem_singleton.mp hc with rfl; decide)).1
  · exact (interrupt_marks_unmatched_pending
      [.task exampleRoot,
       .taskResult ⟨"root", some (.str "All tools completed"), "T4"⟩] [] "T5").2 rfl

end MinusX

namespace MinusX

-- ===========================================================================
-- Lemmas: argument normalization and the run path
-- ===========================================================================

theorem dictInsert_of_not_hasKey {d : List (String × α)} {k : String} (v : α)
    (h : dictHasKey d k = false) : dictInsert d k v = d ++ [(k, v)] := by
  induction d with
  | nil => rfl
  | cons hd tl ih =>
      simp only [dictHasKey, List.any_cons, Bool.or_eq_false_iff] at h
      simp only [dictInsert]
      rw [if_neg (by simpa using h.1)]
      rw [ih (by simp [dictHasKey, h.2])]
      simp

theorem normalize_fold_missing (spec : AgentSpec) :
    ∀ (a : Args) (ms : List String) (args : Args),
      (spec.map AgentParam.name).Nodup →
      (∀ p ∈ spec, dictHasKey a p.name = dictHasKey args p.name) →
      (spec.foldl normalizeStep (a, ms)).2 = ms ++ requiredMissing spec args := by
  induction spec with
  | nil =>
      intro a ms args _ _
      simp [requiredMissing]
  | cons p rest ih =>
      intro a ms args hnd hkeys
      rw [List.map_cons, List.nodup_cons] at hnd
      have hfresh : ∀ p' ∈ rest, p'.name ≠ p.name := by
        intro p' hp' hc
        exact hnd.1 (hc ▸ List.mem_map_of_mem AgentParam.name hp')
      have hkp : dictHasKey a p.name = dictHasKey args p.name :=
        hkeys p (List.mem_cons_self _ _)
      have hkeysRest : ∀ p' ∈ rest, dictHasKey a p'.name = dictHasKey args p'.name :=
        fun p' hp' => hkeys p' (List.mem_cons_of_mem _ hp')
      rw [List.foldl_cons]
      by_cases hk : dictHasKey a p.name = true
      · have hstep : normalizeStep (a, ms) p = (a, ms) := by
          unfold normalizeStep
          rw [if_pos hk]
        rw [hstep, ih a ms args hnd.2 hkeysRest]
        unfold requiredMissing
        rw [List.filterMap_cons]
        cases hdef : p.default <;> simp_all
      · have hkinsert : ∀ (v : Value) (p' : AgentParam), p' ∈ rest →
            dictHasKey (dictInsert a p.name v) p'.name = dictHasKey args p'.name := by
          intro v p' hp'
          rw [dictHasKey_insert]
          have : (p'.name == p.name) = false := by simpa using hfresh p' hp'
          rw [this]
          simp [hkeysRest p' hp']
        cases hdef : p.default with
        | fieldFactory v =>
            have hstep : normalizeStep (a, ms) p = (dictInsert a p.name v, ms) := by
              unfold normalizeStep
              rw [if_neg hk, hdef]
            rw [hstep, ih _ ms args hnd.2 (fun p' hp' => hkinsert v p' hp')]
            unfold requiredMissing
            rw [List.filterMap_cons, hdef]
        | fieldDefault v =>
            have hstep : normalizeStep (a, ms) p = (dictInsert a p.name v, ms) := by
              unfold normalizeStep
              rw [if_neg hk, hdef]
            rw [hstep, ih _ ms args hnd.2 (fun p' hp' => hkinsert v p' hp')]
            unfold requiredMissing
            rw [List.filterMap_cons, hdef]
        | fieldRequired =>
            have hstep : normalizeStep (a, ms) p = (a, ms ++ [p.name]) := by
              unfold normalizeStep
              rw [if_neg hk, hdef]
            rw [hstep, ih a (ms ++ [p.name]) args hnd.2 hkeysRest]
            unfold requiredMissing
            rw [List.filterMap_cons, hdef]
            have hargk : dictHasKey args p.name = false := by
              rw [← hkp]
              simpa using hk
            rw [hargk]
            simp
        | plain =>
            have hstep : normalizeStep (a, ms) p = (a, ms) := by
              unfold normalizeStep
              rw [if_neg hk, hdef]
            rw [hstep, ih a ms args hnd.2 hkeysRest]
            unfold requiredMissing
            rw [List.filterMap_cons, hdef]

/-- With distinct parameter names, `normalize_agent_args` reports exactly
the required `Field` parameters absent from `args`, in declaration order. -/
theorem normalizeAgentArgs_missing (spec : AgentSpec) (args : Args)
    (hnodup : (spec.map AgentParam.name).Nodup) :
    (normalizeAgentArgs spec args).2 = requiredMissing spec args := by
  unfold normalizeAgentArgs
  rw [normalize_fold_missing spec args [] args hnodup (fun _ _ => rfl)]
  rfl

theorem normalize_fold_preserves (spec : AgentSpec) :
    ∀ (acc : Args × List String) (kv : String × Value), kv ∈ acc.1 →
      kv ∈ (spec.foldl normalizeStep acc).1 := by
  induction spec with
  | nil => intro acc kv h; exact h
  | cons p rest ih =>
      intro acc kv h
      rw [List.foldl_cons]
      by_cases hk : dictHasKey acc.1 p.name = true
      · have hstep : normalizeStep acc p = acc := by
          unfold normalizeStep
          rw [if_pos hk]
        rw [hstep]
        exact ih acc kv h
      · cases hdef : p.default with
        | fieldFactory v =>
            have hstep : normalizeStep acc p = (dictInsert acc.1 p.name v, acc.2) := by
              unfold normalizeStep
              rw [if_neg hk, hdef]
            rw [hstep]
            refine ih _ kv ?_
            show kv ∈ dictInsert acc.1 p.name v
            rw [dictInsert_of_not_hasKey v (by simpa using hk)]
            exact List.mem_append.mpr (Or.inl h)
        | fieldDefault v =>
            have hstep : normalizeStep acc p = (dictInsert acc.1 p.name v, acc.2) := by
              unfold normalizeStep
              rw [if_neg hk, hdef]
            rw [hstep]
            refine ih _ kv ?_
            show kv ∈ dictInsert acc.1 p.name v
            rw [dictInsert_of_not_hasKey v (by simpa using hk)]
            exact List.mem_append.mpr (Or.inl h)
        | fieldRequired =>
            have hstep : normalizeStep acc p = (acc.1, acc.2 ++ [p.name]) := by
              unfold normalizeStep
              rw [if_neg hk, hdef]
            rw [hstep]
            exact ih _ kv h
        | plain =>
            have hstep : normalizeStep acc p = acc := by
              unfold normalizeStep
              rw [if_neg hk, hdef]
            rw [hstep]
            exact ih acc kv h

/-- `normalize_agent_args` never removes a supplied argument entry. -/
theorem normalizeAgentArgs_preserves (spec : AgentSpec) (args : Args)
    {kv : String × Value} (h : kv ∈ args) : kv ∈ (normalizeAgentArgs spec args).1 :=
  normalize_fold_preserves spec (args, []) kv h

end MinusX

namespace MinusX

/-- C4 counterexample: `AnalystAgent`'s `goal` is a required constructor
parameter with no default, but it is declared without a pydantic `Field`,
so `normalize_agent_args` does not detect its absence: the task's run
produces no `task_result` at all (in Python the constructor raises
`TypeError`) and the agent is instantiated (`invokedWith` is not `none`). -/
theorem missing_plain_param_not_detected :
    (runSingle plainGoalRegistry typeErrorBehavior "T0" analystState "a1").invokedWith
      = some [] ∧
    ((runSingle plainGoalRegistry typeErrorBehavior "T0" analystState "a1").state.log.filter
      (fun e => match e with | .taskResult _ => true | _ => false)) = [] :=
  ⟨rfl, rfl⟩

/-- C4 (amended): for every task whose args omit at least one required
`Field`-declared constructor parameter (`FieldInfo` with no default and no
factory), `run_single` appends exactly one `TaskResult` whose value is
`"<ERROR>Required parameters missing: …</ERROR>"` listing the missing
names, and the agent is never instantiated — `reduce`/`run` are not called,
no children are dispatched, and the result is the same for every agent
behaviour.  (Required parameters declared without `Field` are not
detected; see the counterexample.) -/
theorem missing_required_field_params (registry : String → Option AgentSpec)
    (b b' : AgentBehavior) (now : String) (st : OrchState) (taskId : String)
    (task : CompressedTask) (spec : AgentSpec)
    (hTask : dictGet st.tasks taskId = some task)
    (hNoResult : task.result = none)
    (hKey1 : dictHasKey task.args "_unique_id" = false)
    (hKey2 : dictHasKey task.args "orchestrator" = false)
    (hSpec : registry task.agent = some spec)
    (hNodup : (spec.map AgentParam.name).Nodup)
    (hMissing : requiredMissing spec task.args ≠ []) :
    runSingle registry b now st taskId =
      { state := assignResult st taskId
          (.str (missingParamsMsg (requiredMissing spec task.args))) now
        outcome := none
        invokedWith := none } ∧
    runSingle registry b now st taskId = runSingle registry b' now st taskId := by
  have hmain : ∀ bb : AgentBehavior, runSingle registry bb now st taskId =
      { state := assignResult st taskId
          (.str (missingParamsMsg (requiredMissing spec task.args))) now
        outcome := none
        invokedWith := none } := by
    intro bb
    simp only [runSingle, hTask, hNoResult, Option.isSome_none, hKey1, hKey2,
      Bool.or_self, Bool.false_eq_true, if_false, hSpec,
      normalizeAgentArgs_missing spec task.args hNodup]
    rw [if_pos hMissing]
  exact ⟨hmain b, (hmain b).trans (hmain b').symm⟩

/-- Witness for C4's amended theorem: `SimpleTool` requires the `Field`
parameter `value`; a task omitting it gets the synthetic error result and
its agent is never instantiated. -/
theorem missing_required_field_params_witness :
    runSingle simpleToolRegistry idleBehavior "T0" missingValueState "s1" =
      { state := assignResult missingValueState "s1"
          (.str (missingParamsMsg (requiredMissing [⟨"value", .fieldRequired⟩] []))) "T0"
        outcome := none
        invokedWith := none } :=
  (missing_required_field_params simpleToolRegistry idleBehavior idleBehavior "T0"
    missingValueState "s1" missingValueTask [⟨"value", .fieldRequired⟩]
    rfl rfl rfl rfl rfl (by simp) (by decide)).1

end MinusX

namespace MinusX

/-- C6 counterexample: a task whose args carry the underscore-prefixed key
`_original_args` is run with that key still present in the args handed to
the agent's constructor — keys starting with `_` are not removed. -/
theorem underscore_key_reaches_constructor :
    (runSingle noArgRegistry idleBehavior "T0" underscoreState "u1").invokedWith
      = some [("_original_args", .str "raw")] := rfl

/-- C6 (amended): on the run path a task whose args contain the reserved
key `_unique_id` or `orchestrator` is rejected with a `ValueError` before
any agent is instantiated; otherwise the args handed to the constructor
are the task's args with declared defaults added — no key (underscore-
prefixed or not) is removed; the resume path applies no reserved-key check
and instantiates the agent even when `orchestrator` is present in args. -/
theorem reserved_key_handling (registry : String → Option AgentSpec)
    (b : AgentBehavior) (now : String) :
    (∀ (st : OrchState) (taskId : String) (task : CompressedTask),
      dictGet st.tasks taskId = some task → task.result = none →
      (dictHasKey task.args "_unique_id" || dictHasKey task.args "orchestrator") = true →
      runSingle registry b now st taskId =
        { state := st
          outcome := some (.other
            ("ValueError: Agent arguments cannot contain reserved keys. Agent: "
              ++ task.agent))
          invokedWith := none }) ∧
    (∀ (st : OrchState) (taskId : String) (task : CompressedTask) (a : Args),
      dictGet st.tasks taskId = some task →
      (runSingle registry b now st taskId).invokedWith = some a →
      ∀ kv ∈ task.args, kv ∈ a) ∧
    (∀ (ctx : ResumeCtx) (fuel : Nat) (taskId : String) (task : CompressedTask)
        (spec : AgentSpec) (st2 : OrchState) (exc : ExcKind),
      dictGet ctx.st.tasks taskId = some task →
      ctx.processing.contains taskId = false →
      task.result = none →
      getChildren ctx.st taskId = some [] →
      registry task.agent = some spec →
      (spec.map AgentParam.name).Nodup →
      requiredMissing spec task.args = [] →
      dictHasKey task.args "orchestrator" = true →
      b task (normalizeAgentArgs spec task.args).1 ctx.st = (st2, .error exc) →
      (resumeTask registry b now (fuel + 1) ctx taskId).1.trace =
        ctx.trace ++ [(taskId, true)]) := by
  refine ⟨?_, ?_, ?_⟩
  · intro st taskId task hTask hNoResult hReserved
    simp only [runSingle, hTask, hNoResult, Option.isSome_none, Bool.false_eq_true,
      if_false, hReserved, if_true]
  · intro st taskId task a hTask hInv kv hkv
    revert hInv
    simp only [runSingle, hTask]
    cases task.result.isSome
    · simp only [Bool.false_eq_true, if_false]
      cases hres : (dictHasKey task.args "_unique_id" || dictHasKey task.args "orchestrator")
      · simp only [Bool.false_eq_true, if_false]
        cases registry task.agent with
        | none =>
            intro hInv
            cases hInv
        | some spec =>
            dsimp only
            split
            · intro hInv
              cases hInv
            · split
              · intro hInv
                cases hInv
                exact normalizeAgentArgs_preserves spec task.args hkv
              · intro hInv
                cases hInv
                exact normalizeAgentArgs_preserves spec task.args hkv
      · intro hInv
        cases hInv
    · intro hInv
      cases hInv
  · intro ctx fuel taskId task spec st2 exc hTask hProc hNoResult hChildren hSpec hNodup
      hMissing hKey hBeh
    simp only [resumeTask, hTask, hProc, hNoResult, Option.isSome_none, Bool.or_self,
      Bool.false_eq_true, if_false, hChildren, List.any_nil, hSpec,
      normalizeAgentArgs_missing spec task.args hNodup, hMissing, List.all_nil,
      ne_eq, not_true_eq_false, if_true, hBeh]

end MinusX

namespace MinusX

/-- Witness for C6's amended theorem: a task with the reserved key
`orchestrator` is rejected on the run path, while the resume path
instantiates its agent regardless. -/
theorem reserved_key_handling_witness :
    runSingle noArgRegistry idleBehavior "T0" reservedKeyState "r1" =
      { state := reservedKeyState
        outcome := some (.other
          ("ValueError: Agent arguments cannot contain reserved keys. Agent: "
            ++ reservedKeyTask.agent))
        invokedWith := none } ∧
    (resumeTask noArgRegistry typeErrorBehavior "T0" (0 + 1)
        (initialResumeCtx reservedKeyState) "r1").1.trace = [("r1", true)] := by
  constructor
  · exact (reserved_key_handling noArgRegistry idleBehavior "T0").1 reservedKeyState "r1"
      reservedKeyTask rfl rfl (by decide)
  · exact (reserved_key_handling noArgRegistry typeErrorBehavior "T0").2.2
      (initialResumeCtx reservedKeyState) 0 "r1" reservedKeyTask [] reservedKeyState
      (.other "TypeError: missing required argument: goal")
      rfl rfl rfl rfl rfl (by decide) rfl (by decide) rfl

/-- `run_single` skips a task that already has a result, leaving the state
untouched. -/
theorem runSingle_skip {registry : String → Option AgentSpec} {b : AgentBehavior}
    {now : String} {st : OrchState} {taskId : String} {task : CompressedTask}
    (hget : dictGet st.tasks taskId = some task) (hres : task.result.isSome = true) :
    runSingle registry b now st taskId = ⟨st, none, none⟩ := by
  simp only [runSingle, hget, hres, if_true]

/-- Linking a batch into a parent changes no task's result. -/
theorem linkParent_get_result (st : OrchState) (parentId : Option String)
    (ids : List String) (k : String) :
    (dictGet (linkParent st parentId ids).tasks k).map CompressedTask.result =
      (dictGet st.tasks k).map CompressedTask.result := by
  cases parentId with
  | none => rfl
  | some p =>
      unfold linkParent
      dsimp only
      rw [dictGet_modify]
      split
      · cases dictGet st.tasks k <;> rfl
      · rfl

/-- `Orchestrator.run` on a single call with a caller-supplied id: create
the task, link it to the parent, and execute it once. -/
theorem orchRun_singleton (registry : String → Option AgentSpec) (b : AgentBehavior)
    (genId : Nat → String) (now : String) (st : OrchState) (call : AgentCall)
    (uid : String) (hid : call.unique_id = some uid) (parentId prevId : Option String) :
    orchRun registry b genId now st [call] parentId prevId =
      ((runSingle registry b now
          (linkParent (addTask st (mkRunTask (genId 0) call uid parentId prevId) now)
            parentId [uid]) uid).state,
       handleExceptions [(runSingle registry b now
          (linkParent (addTask st (mkRunTask (genId 0) call uid parentId prevId) now)
            parentId [uid]) uid).outcome],
       [(runSingle registry b now
          (linkParent (addTask st (mkRunTask (genId 0) call uid parentId prevId) now)
            parentId [uid]) uid).outcome],
       ((runSingle registry b now
          (linkParent (addTask st (mkRunTask (genId 0) call uid parentId prevId) now)
            parentId [uid]) uid).invokedWith.map (fun a => [(uid, a)])).getD []) := by
  unfold orchRun
  simp only [List.foldl_cons, List.foldl_nil, hid, Option.getD_some, List.nil_append]

/-- C7: an LLM tool call whose `arguments` string fails JSON parsing is
converted to an `AgentCall` with `error = "Invalid JSON in arguments"` and
`args = {_original_args: raw}`; running it records the error as the
created task's result immediately, the agent is never instantiated (no
constructor invocation) and the run is independent of the agent
behaviour. -/
theorem invalid_json_arguments (parse : String → Option Value)
    (toolCalls : List LLMToolCall) (content : String)
    (citations contentBlocks : List Value)
    (tc : LLMToolCall) (htc : tc ∈ toolCalls)
    (hparse : parse tc.arguments = none)
    (registry : String → Option AgentSpec) (b b' : AgentBehavior)
    (genId : Nat → String) (now : String) (st : OrchState)
    (parentId prevId : Option String) :
    (⟨tc.name, [("_original_args", .str tc.arguments)], some tc.id,
        some "Invalid JSON in arguments"⟩ : AgentCall) ∈
      toolCallsToAgentCalls parse toolCalls content citations contentBlocks ∧
    ((dictGet (orchRun registry b genId now st
        [⟨tc.name, [("_original_args", .str tc.arguments)], some tc.id,
          some "Invalid JSON in arguments"⟩] parentId prevId).1.tasks tc.id).map
        CompressedTask.result = some (some (.str "Invalid JSON in arguments"))) ∧
    (orchRun registry b genId now st
        [⟨tc.name, [("_original_args", .str tc.arguments)], some tc.id,
          some "Invalid JSON in arguments"⟩] parentId prevId).2.2.2 = [] ∧
    orchRun registry b genId now st
        [⟨tc.name, [("_original_args", .str tc.arguments)], some tc.id,
          some "Invalid JSON in arguments"⟩] parentId prevId =
      orchRun registry b' genId now st
        [⟨tc.name, [("_original_args", .str tc.arguments)], some tc.id,
          some "Invalid JSON in arguments"⟩] parentId prevId := by
  have hmem : (⟨tc.name, [("_original_args", .str tc.arguments)], some tc.id,
      some "Invalid JSON in arguments"⟩ : AgentCall) ∈
      toolCallsToAgentCalls parse toolCalls content citations contentBlocks := by
    unfold toolCallsToAgentCalls
    refine List.mem_append.mpr (Or.inr ?_)
    refine List.mem_map.mpr ⟨tc, htc, ?_⟩
    rw [hparse]
    rfl
  refine ⟨hmem, ?_⟩
  have hresmap : ∀ bb : AgentBehavior,
      (dictGet (linkParent (addTask st (mkRunTask (genId 0)
          ⟨tc.name, [("_original_args", .str tc.arguments)], some tc.id,
            some "Invalid JSON in arguments"⟩ tc.id parentId prevId) now)
          parentId [tc.id]).tasks tc.id).map CompressedTask.result
        = some (some (.str "Invalid JSON in arguments")) := by
    intro bb
    rw [linkParent_get_result]
    have h0 : dictGet (addTask st (mkRunTask (genId 0)
        ⟨tc.name, [("_original_args", .str tc.arguments)], some tc.id,
          some "Invalid JSON in arguments"⟩ tc.id parentId prevId) now).tasks tc.id
        = some (mkRunTask (genId 0)
          ⟨tc.name, [("_original_args", .str tc.arguments)], some tc.id,
            some "Invalid JSON in arguments"⟩ tc.id parentId prevId) := by
      unfold addTask
      exact dictGet_insert_self _ _ _
    rw [h0]
    rfl
  have hskip : ∀ bb : AgentBehavior,
      runSingle registry bb now (linkParent (addTask st (mkRunTask (genId 0)
          ⟨tc.name, [("_original_args", .str tc.arguments)], some tc.id,
            some "Invalid JSON in arguments"⟩ tc.id parentId prevId) now)
          parentId [tc.id]) tc.id =
        ⟨linkParent (addTask st (mkRunTask (genId 0)
          ⟨tc.name, [("_original_args", .str tc.arguments)], some tc.id,
            some "Invalid JSON in arguments"⟩ tc.id parentId prevId) now)
          parentId [tc.id], none, none⟩ := by
    intro bb
    rcases Option.map_eq_some'.mp (hresmap bb) with ⟨task1, hget1, hres1⟩
    apply runSingle_skip hget1
    rw [hres1]
    rfl
  have hrun : ∀ bb : AgentBehavior,
      orchRun registry bb genId now st
        [⟨tc.name, [("_original_args", .str tc.arguments)], some tc.id,
          some "Invalid JSON in arguments"⟩] parentId prevId =
      (linkParent (addTask st (mkRunTask (genId 0)
          ⟨tc.name, [("_original_args", .str tc.arguments)], some tc.id,
            some "Invalid JSON in arguments"⟩ tc.id parentId prevId) now)
          parentId [tc.id], none, [none], []) := by
    intro bb
    rw [orchRun_singleton registry bb genId now st _ tc.id rfl parentId prevId]
    rw [hskip bb]
    rfl
  refine ⟨?_, ?_, (hrun b).trans (hrun b').symm⟩
  · rw [hrun b]
    exact hresmap b
  · rw [hrun b]

end MinusX

namespace MinusX

/-- Witness for C7: a concrete unparseable tool call is converted with the
error preset and runs without ever instantiating the agent. -/
theorem invalid_json_arguments_witness :
    ((dictGet (orchRun simpleToolRegistry idleBehavior (fun _ => "gen") "T0" ⟨[], [], 0⟩
        [⟨"SimpleTool", [("_original_args", .str "not json")], some "id9",
          some "Invalid JSON in arguments"⟩] none none).1.tasks "id9").map
        CompressedTask.result = some (some (.str "Invalid JSON in arguments"))) ∧
    (orchRun simpleToolRegistry idleBehavior (fun _ => "gen") "T0" ⟨[], [], 0⟩
        [⟨"SimpleTool", [("_original_args", .str "not json")], some "id9",
          some "Invalid JSON in arguments"⟩] none none).2.2.2 = [] := by
  have h := invalid_json_arguments (fun _ => none) [⟨"id9", "SimpleTool", "not json"⟩]
    "" [] [] ⟨"id9", "SimpleTool", "not json"⟩ (List.mem_singleton_self _) rfl
    simpleToolRegistry idleBehavior idleBehavior (fun _ => "gen") "T0" ⟨[], [], 0⟩ none none
  exact ⟨h.2.1, h.2.2.1⟩

theorem handleExceptions_go_no_other :
    ∀ (results : List TaskOutcome) (ids : List String),
      results.all (fun r => !isOtherExc r) = true →
      handleExceptions.go results ids =
        if ids ++ suspendedIds results = [] then none
        else some (.userInput (ids ++ suspendedIds results)) := by
  intro results
  induction results with
  | nil =>
      intro ids _
      simp only [handleExceptions.go, suspendedIds, List.append_nil]
      by_cases h : ids = []
      · simp [h]
      · simp [h]
  | cons r rest ih =>
      intro ids hall
      rw [List.all_cons, Bool.and_eq_true] at hall
      cases r with
      | none =>
          simp only [handleExceptions.go, suspendedIds]
          exact ih ids hall.2
      | some e =>
          cases e with
          | userInput l =>
              simp only [handleExceptions.go, suspendedIds]
              rw [ih (ids ++ l) hall.2, List.append_assoc]
          | other m => simp [isOtherExc] at hall

theorem handleExceptions_go_first_other :
    ∀ (pre : List TaskOutcome) (ids : List String) (m : String)
      (post : List TaskOutcome),
      pre.all (fun r => !isOtherExc r) = true →
      handleExceptions.go (pre ++ some (.other m) :: post) ids = some (.other m) := by
  intro pre
  induction pre with
  | nil =>
      intro ids m post _
      simp [handleExceptions.go]
  | cons r rest ih =>
      intro ids m post hall
      rw [List.all_cons, Bool.and_eq_true] at hall
      cases r with
      | none =>
          rw [List.cons_append]
          simp only [handleExceptions.go]
          exact ih ids m post hall.2
      | some e =>
          cases e with
          | userInput l =>
              rw [List.cons_append]
              simp only [handleExceptions.go]
              exact ih (ids ++ l) m post hall.2
          | other m2 => simp [isOtherExc] at hall

/-- C8: `Orchestrator.run` settles the whole batch, then raises the
exception computed by `_handle_exceptions` over all settled outcomes:
when no outcome is a non-`UserInput` exception, all `UserInput` ids are
aggregated into one `UserInputException` (none raised when no task
suspended); a non-`UserInput` exception is re-raised unchanged (the first
one, ids collected before it are dropped). -/
theorem run_gathers_user_input_signals (registry : String → Option AgentSpec)
    (b : AgentBehavior) (genId : Nat → String) (now : String) (st : OrchState)
    (calls : List AgentCall) (parentId prevId : Option String) :
    (orchRun registry b genId now st calls parentId prevId).2.1 =
      handleExceptions (orchRun registry b genId now st calls parentId prevId).2.2.1 ∧
    (∀ results : List TaskOutcome, results.all (fun r => !isOtherExc r) = true →
      handleExceptions results =
        if suspendedIds results = [] then none
        else some (.userInput (suspendedIds results))) ∧
    (∀ (pre post : List TaskOutcome) (m : String),
      pre.all (fun r => !isOtherExc r) = true →
      handleExceptions (pre ++ some (.other m) :: post) = some (.other m)) := by
  refine ⟨rfl, ?_, ?_⟩
  · intro results hall
    unfold handleExceptions
    rw [handleExceptions_go_no_other results [] hall]
    rfl
  · intro pre post m hall
    unfold handleExceptions
    exact handleExceptions_go_first_other pre [] m post hall

/-- Witness for C8: three settled outcomes with two suspensions aggregate
into one signal; a non-`UserInput` exception wins over suspensions. -/
theorem run_gathers_user_input_signals_witness :
    handleExceptions [none, some (.userInput ["a"]), some (.userInput ["b", "c"])] =
      some (.userInput ["a", "b", "c"]) ∧
    handleExceptions [some (.userInput ["a"]), some (.other "boom"),
      some (.userInput ["z"])] = some (.other "boom") := by
  have h := run_gathers_user_input_signals (fun _ => none) idleBehavior (fun _ => "g")
    "T0" ⟨[], [], 0⟩ [] none none
  constructor
  · rw [h.2.1 [none, some (.userInput ["a"]), some (.userInput ["b", "c"])] (by decide)]
    rfl
  · exact h.2.2 [some (.userInput ["a"])] [some (.userInput ["z"])] "boom" (by decide)

end MinusX

namespace MinusX

theorem all_done_of_not_any {cs : List (List CompressedTask)}
    (h : (cs.any fun g => g.any fun c => c.result.isNone) = false) :
    (cs.all fun g => g.all fun c => c.result.isSome) = true := by
  rw [List.all_eq_true]
  intro g hg
  rw [List.all_eq_true]
  intro c hc
  rw [List.any_eq_false] at h
  have h2 : (g.any fun c => c.result.isNone) = false :=
    eq_false_of_ne_true (h g hg)
  rw [List.any_eq_false] at h2
  have h3 : c.result.isNone = false := eq_false_of_ne_true (h2 c hc)
  cases hres : c.result with
  | none => rw [hres] at h3; simp at h3
  | some v => rfl

theorem resumeInv_initial (st : OrchState) : ResumeInv (initialResumeCtx st) :=
  ⟨List.nodup_nil, by simp [initialResumeCtx], by simp [initialResumeCtx]⟩

theorem resumeTask_inv (registry : String → Option AgentSpec) (b : AgentBehavior)
    (now : String) :
    ∀ (fuel : Nat) (ctx : ResumeCtx) (tid : String),
      ResumeInv ctx →
      ResumeInv (resumeTask registry b now fuel ctx tid).1 ∧
      (∀ x ∈ ctx.processing, x ∈ (resumeTask registry b now fuel ctx tid).1.processing) := by
  intro fuel
  induction fuel with
  | zero =>
      intro ctx tid h
      exact ⟨h, fun x hx => hx⟩
  | succ fuel ih =>
      intro ctx tid hinv
      simp only [resumeTask]
      cases hget : dictGet ctx.st.tasks tid with
      | none => exact ⟨hinv, fun x hx => hx⟩
      | some task =>
          dsimp only
          by_cases hguard : (ctx.processing.contains tid || task.result.isSome) = true
          · rw [if_pos hguard]
            exact ⟨hinv, fun x hx => hx⟩
          · rw [if_neg hguard]
            cases hch : getChildren ctx.st tid with
            | none => exact ⟨hinv, fun x hx => hx⟩
            | some childTasks =>
                dsimp only
                by_cases hany :
                    (childTasks.any fun g => g.any fun c => c.result.isNone) = true
                · rw [if_pos hany]
                  exact ⟨hinv, fun x hx => hx⟩
                · rw [if_neg hany]
                  have htid : tid ∉ ctx.processing := by
                    intro hmem
                    apply hguard
                    have hcont : ctx.processing.contains tid = true :=
                      List.elem_eq_true_of_mem hmem
                    rw [hcont]
                    rfl
                  cases hreg : registry task.agent with
                  | none =>
                      refine ⟨⟨hinv.1, ?_, hinv.2.2⟩, ?_⟩
                      · intro x hx
                        exact List.mem_append.mpr (Or.inl (hinv.2.1 x hx))
                      · intro x hx
                        exact List.mem_append.mpr (Or.inl hx)
                  | some spec =>
                      dsimp only
                      by_cases hmiss :
                          (normalizeAgentArgs spec task.args).2 ≠ []
                      · rw [if_pos hmiss]
                        refine ⟨⟨hinv.1, ?_, hinv.2.2⟩, ?_⟩
                        · intro x hx
                          exact List.mem_append.mpr (Or.inl (hinv.2.1 x hx))
                        · intro x hx
                          exact List.mem_append.mpr (Or.inl hx)
                      · rw [if_neg hmiss]
                        have hallD :
                            (childTasks.all fun g => g.all fun c => c.result.isSome)
                              = true :=
                          all_done_of_not_any (eq_false_of_ne_true hany)
                        have hctx2 : ResumeInv
                            { st := ctx.st
                              processing := ctx.processing ++ [tid]
                              trace := ctx.trace ++
                                [(tid, childTasks.all fun g =>
                                    g.all fun c => c.result.isSome)] } := by
                          refine ⟨?_, ?_, ?_⟩
                          · rw [List.map_append]
                            refine List.Nodup.append hinv.1
                              (List.nodup_singleton tid) ?_
                            intro a ha hb
                            rw [List.map_singleton, List.mem_singleton] at hb
                            subst hb
                            exact htid (hinv.2.1 a ha)
                          · intro x hx
                            rw [List.map_append, List.mem_append] at hx
                            rcases hx with hx | hx
                            · exact List.mem_append.mpr (Or.inl (hinv.2.1 x hx))
                            · rw [List.map_singleton, List.mem_singleton] at hx
                              subst hx
                              exact List.mem_append.mpr (Or.inr (List.mem_singleton_self _))
                          · intro p hp
                            rcases List.mem_append.mp hp with hp | hp
                            · exact hinv.2.2 p hp
                            · rw [List.mem_singleton] at hp
                              subst hp
                              exact hallD
                        cases hexec : b task (normalizeAgentArgs spec task.args).1 ctx.st with
                        | mk st2 r =>
                            cases r with
                            | ok v =>
                                dsimp only
                                cases hpar : task.parent_unique_id with
                                | some p =>
                                    have hih := ih
                                      { st := addDebug (assignResult st2 tid v now) tid now
                                        processing := ctx.processing ++ [tid]
                                        trace := ctx.trace ++
                                          [(tid, childTasks.all fun g =>
                                              g.all fun c => c.result.isSome)] } p
                                      ⟨hctx2.1, hctx2.2.1, hctx2.2.2⟩
                                    refine ⟨hih.1, ?_⟩
                                    intro x hx
                                    exact hih.2 x (List.mem_append.mpr (Or.inl hx))
                                | none =>
                                    refine ⟨⟨hctx2.1, hctx2.2.1, hctx2.2.2⟩, ?_⟩
                                    intro x hx
                                    exact List.mem_append.mpr (Or.inl hx)
                            | error exc =>
                                refine ⟨⟨hctx2.1, hctx2.2.1, hctx2.2.2⟩, ?_⟩
                                intro x hx
                                exact List.mem_append.mpr (Or.inl hx)

theorem orchResume_inv (registry : String → Option AgentSpec) (b : AgentBehavior)
    (now : String) (fuel : Nat) (st : OrchState) :
    ResumeInv (orchResume registry b now fuel st).1 := by
  unfold orchResume
  suffices hgen : ∀ (ls : List CompressedTask) (acc : ResumeCtx × List TaskOutcome),
      ResumeInv acc.1 →
      ResumeInv (ls.foldl
        (fun (acc : ResumeCtx × List TaskOutcome) leaf =>
          let r := resumeTask registry b now fuel acc.1 leaf.unique_id
          (r.1, acc.2 ++ [r.2])) acc).1 by
    exact hgen (leafPendingTasks st) _ ⟨List.nodup_nil, by simp, by simp⟩
  intro ls
  induction ls with
  | nil => intro acc h; exact h
  | cons leaf rest ihl =>
      intro acc h
      rw [List.foldl_cons]
      exact ihl _ (resumeTask_inv registry b now fuel acc.1 leaf.unique_id h).1

/-- C5: during `resume()`, for any task the pair `reduce()`+`run()` is
invoked at most once (the execution trace has pairwise distinct task ids),
and every invocation happens only after all of the task's children have
results — for every agent behaviour, registry, fuel and starting state. -/
theorem resume_single_execution (registry : String → Option AgentSpec)
    (b : AgentBehavior) (now : String) (fuel : Nat) (st : OrchState) :
    (((orchResume registry b now fuel st).1.trace.map Prod.fst).Nodup) ∧
    (∀ p ∈ (orchResume registry b now fuel st).1.trace,
      (p : String × Bool).2 = true) :=
  ⟨(orchResume_inv registry b now fuel st).1,
   (orchResume_inv registry b now fuel st).2.2⟩

end MinusX

